import Mathlib

/-!
Verification development for the core of the flamego HTTP framework:
route AST and parser (internal/route/definition.go, parser.go), route tree
(internal/route/tree.go, leaf.go), header matcher (header.go), router
(router.go), typed injector (inject/inject.go), context chain runtime
(context.go), handler validation (handler.go) and the response writer
wrapper (response_writer.go).

Conventions of the shallow embedding:
* Go strings are Lean `String`s; scanning works on `List Char`.
* Go maps used as association containers become association lists; the
  iteration order of a Go map is undefined, the list order stands in for
  one concrete iteration order.
* Fallible Go functions returning `error` become `Option`/`Except`;
  Go panics become distinguished error values.
* Compiled regular expressions (Go `regexp`, an external library) are kept
  abstract: nodes store the pattern string and matching is parameterized by
  an abstract engine.
* Recursion that Go bounds by mutation/termination of input is expressed
  with an explicit fuel parameter; the top-level wrappers supply fuel
  larger than the input length.
-/

namespace Flamego

/-! ## Route AST (internal/route/definition.go) -/

/-- `BindParameterValue` from definition.go: either literal or regex, the
latter surrounded by slashes when rendered. -/
structure BindParameterValue where
  literal : Option String
  regex : Option String
deriving DecidableEq, Repr

/-- `BindParameter` from definition.go: identifier and value. -/
structure BindParameter where
  ident : String
  value : BindParameterValue
deriving DecidableEq, Repr

/-- `BindParameters` from definition.go. -/
structure BindParameters where
  parameters : List BindParameter
deriving DecidableEq, Repr

/-- `SegmentElement` from definition.go: identifier, bind identifier or a
list of bind parameters. -/
structure SegmentElement where
  ident : Option String
  bindIdent : Option String
  bindParameters : Option BindParameters
deriving DecidableEq, Repr

/-- `Segment` from definition.go: the optional flag and the elements. -/
structure Segment where
  optional : Bool
  elements : List SegmentElement
deriving DecidableEq, Repr

/-- `Route` from definition.go: a non-empty list of segments (the parser
only produces non-empty lists; emptiness is re-checked by `AddRoute`). -/
structure Route where
  segments : List Segment
deriving DecidableEq, Repr

/-- Rendering of a `BindParameterValue` inside `Segment.String()`:
literal, `/regex/`, or the `"???"` fallback for an empty value. -/
def bindParameterValueString (v : BindParameterValue) : String :=
  match v.literal with
  | some l => l
  | none =>
    match v.regex with
    | some re => "/" ++ re ++ "/"
    | none => "???"

/-- Rendering of one bind parameter: `ident: value`. -/
def bindParameterString (p : BindParameter) : String :=
  p.ident ++ ": " ++ bindParameterValueString p.value

/-- Rendering of the comma-separated bind parameter list, mirroring the
loop in `Segment.String()` that appends `", "` between entries. -/
def bindParametersString : List BindParameter → String
  | [] => ""
  | [p] => bindParameterString p
  | p :: rest => bindParameterString p ++ ", " ++ bindParametersString rest

/-- Rendering of one segment element inside `Segment.String()`. -/
def segmentElementString (e : SegmentElement) : String :=
  match e.ident with
  | some id => id
  | none =>
    match e.bindIdent with
    | some id => "\x7b" ++ id ++ "\x7d"
    | none =>
      match e.bindParameters with
      | none => "???"
      | some ps =>
        if ps.parameters.isEmpty then "???"
        else "\x7b" ++ bindParametersString ps.parameters ++ "\x7d"

/-- `Segment.String()` from definition.go (the `sync.Once` caching is
irrelevant for a pure function). -/
def segmentString (s : Segment) : String :=
  "/" ++ (if s.optional then "?" else "") ++
    String.join (s.elements.map segmentElementString)

/-- `Route.String()` from definition.go. -/
def routeString (r : Route) : String :=
  String.join (r.segments.map segmentString)

/-! ## Route parser (internal/route/parser.go)

The source configures the external `participle` library with a stateful
lexer and the grammar in the struct tags of definition.go:

  Route          = Segment+ .
  Segment        = "/" "?"? Element* .
  Element        = Ident | "{" Ident "}" | "{" BindParameters "}" .
  BindParameters = ( BindParameter ( "," " "* BindParameter )* )+ .
  BindParameter  = Ident ":" " "* BindParameterValue .
  BindParameterValue = Ident | "/" Regex "/" .

The lexer tokens are maximal-munch character classes:
  Ident = `[a-zA-Z0-9\-._~@!$&'()*+;%=]+`   (RFC 3986 characters)
  Regex = `[a-zA-Z0-9*\-+._,?()\[\]{} \\\|]+`  (only inside `/.../`)
plus the punctuation of the active lexer mode.  The embedding fuses the
lexer and the recursive-descent parse over the character list: an `Ident`
token is a maximal run of `Ident`-class characters; alternatives are tried
in the order of the grammar with backtracking. -/

/-- ASCII letter test, mirroring `[a-zA-Z]` in the lexer patterns. -/
def isAsciiLetter (c : Char) : Bool :=
  (('a' ≤ c) && (c ≤ 'z')) || (('A' ≤ c) && (c ≤ 'Z'))

/-- ASCII digit test, mirroring `[0-9]`. -/
def isAsciiDigit (c : Char) : Bool :=
  ('0' ≤ c) && (c ≤ '9')

/-- The `Ident` token character class `[a-zA-Z0-9\-._~@!$&'()*+;%=]`. -/
def isIdentChar (c : Char) : Bool :=
  isAsciiLetter c || isAsciiDigit c ||
    c ∈ ['-', '.', '_', '~', '@', '!', '$', '&', Char.ofNat 39,
         '(', ')', '*', '+', ';', '%', '=']

/-- The `Regex` token character class `[a-zA-Z0-9*\-+._,?()\[\]{} \\\|]`. -/
def isRegexChar (c : Char) : Bool :=
  isAsciiLetter c || isAsciiDigit c ||
    c ∈ ['*', '-', '+', '.', '_', ',', '?', '(', ')', '[', ']',
         '{', '}', ' ', '\\', '|']

/-- One maximal-munch `Ident` token: a non-empty run of ident characters. -/
def parseIdent (cs : List Char) : Option (String × List Char) :=
  match cs.span isIdentChar with
  | (tok, rest) => if tok.isEmpty then none else some (String.mk tok, rest)

/-- One maximal-munch `Regex` token: a non-empty run of regex characters. -/
def parseRegexTok (cs : List Char) : Option (String × List Char) :=
  match cs.span isRegexChar with
  | (tok, rest) => if tok.isEmpty then none else some (String.mk tok, rest)

/-- Consume the `" "*` of the grammar: any run of space characters (each
space is one `Whitespace` token matched by the `' '` literal). -/
def skipSpaces (cs : List Char) : List Char :=
  cs.dropWhile (fun c => c = ' ')

/-- `BindParameterValue = Ident | "/" Regex "/"`. -/
def parseValue (cs : List Char) : Option (BindParameterValue × List Char) :=
  match parseIdent cs with
  | some (s, rest) => some (⟨some s, none⟩, rest)
  | none =>
    match cs with
    | '/' :: cs1 =>
      match parseRegexTok cs1 with
      | some (re, '/' :: rest) => some (⟨none, some re⟩, rest)
      | _ => none
    | _ => none

/-- `BindParameter = Ident ":" " "* BindParameterValue`. -/
def parseParam (cs : List Char) : Option (BindParameter × List Char) :=
  match parseIdent cs with
  | some (id, ':' :: cs1) =>
    match parseValue (skipSpaces cs1) with
    | some (v, cs2) => some (⟨id, v⟩, cs2)
    | none => none
  | _ => none

/-- The parameters after the first one.  Inside one group the grammar
joins them by `"," " "*`; the outer `( ... )+` admits a following group
with no separator at all (only reachable after a regex value). -/
def parseParamsAux : Nat → List Char → Option (List BindParameter × List Char)
  | 0, _ => none
  | fuel + 1, cs =>
    match cs with
    | ',' :: cs1 =>
      match parseParam (skipSpaces cs1) with
      | some (p, cs2) =>
        match parseParamsAux fuel cs2 with
        | some (ps, rest) => some (p :: ps, rest)
        | none => none
      | none => some ([], cs)
    | _ =>
      match parseParam cs with
      | some (p, cs2) =>
        match parseParamsAux fuel cs2 with
        | some (ps, rest) => some (p :: ps, rest)
        | none => none
      | none => some ([], cs)

/-- `BindParameters`: at least one parameter, then the continuation. -/
def parseParams (fuel : Nat) (cs : List Char) :
    Option (List BindParameter × List Char) :=
  match parseParam cs with
  | some (p, cs1) =>
    match parseParamsAux fuel cs1 with
    | some (ps, rest) => some (p :: ps, rest)
    | none => none
  | none => none

/-- `Element = Ident | "{" Ident "}" | "{" BindParameters "}"`, the
alternatives tried in grammar order. -/
def parseElement (fuel : Nat) (cs : List Char) :
    Option (SegmentElement × List Char) :=
  match cs with
  | '{' :: cs1 =>
    match parseIdent cs1 with
    | some (id, '}' :: cs2) => some (⟨none, some id, none⟩, cs2)
    | _ =>
      match parseParams fuel cs1 with
      | some (ps, '}' :: cs2) => some (⟨none, none, some ⟨ps⟩⟩, cs2)
      | _ => none
  | _ =>
    match parseIdent cs with
    | some (id, rest) => some (⟨some id, none, none⟩, rest)
    | none => none

/-- `Element*`. -/
def parseElementsAux : Nat → List Char → (List SegmentElement × List Char)
  | 0, cs => ([], cs)
  | fuel + 1, cs =>
    match parseElement (fuel + 1) cs with
    | some (e, cs1) =>
      match parseElementsAux fuel cs1 with
      | (es, rest) => (e :: es, rest)
    | none => ([], cs)

/-- `Segment = "/" "?"? Element*`. -/
def parseSegment (fuel : Nat) (cs : List Char) :
    Option (Segment × List Char) :=
  match cs with
  | '/' :: cs1 =>
    match cs1 with
    | '?' :: cs2 =>
      match parseElementsAux fuel cs2 with
      | (es, rest) => some (⟨true, es⟩, rest)
    | _ =>
      match parseElementsAux fuel cs1 with
      | (es, rest) => some (⟨false, es⟩, rest)
  | _ => none

/-- `Segment+` (one segment then the rest). -/
def parseSegmentsAux : Nat → List Char → (List Segment × List Char)
  | 0, cs => ([], cs)
  | fuel + 1, cs =>
    match parseSegment (fuel + 1) cs with
    | some (s, cs1) =>
      match parseSegmentsAux fuel cs1 with
      | (ss, rest) => (s :: ss, rest)
    | none => ([], cs)

/-- `Parser.Parse`: the whole input must be consumed and at least one
segment parsed. -/
def parseRouteCs (cs : List Char) : Option Route :=
  match parseSegmentsAux (cs.length + 1) cs with
  | (ss, rest) =>
    if ss.isEmpty then none
    else if rest.isEmpty then some ⟨ss⟩ else none

/-- `Parser.Parse` on a `String`. -/
def parseRouteStr (s : String) : Option Route :=
  parseRouteCs s.data

/-! ## Canonicalizing transducer

A second family of functions with the same control flow as the parser
but emitting the canonical text of the consumed input instead of an AST:
bind-parameter separators are rendered as `": "` and `", "` exactly.
These functions formalize the spec's phrase "whitespace-insensitive
reconstruction": `Route.String()` on a parse result equals the
canonicalized input, and equals the input itself exactly when the input
is already canonical. -/

/-- Canonical text of one `BindParameterValue`. -/
def canonValue (cs : List Char) : Option (String × List Char) :=
  match parseIdent cs with
  | some (s, rest) => some (s, rest)
  | none =>
    match cs with
    | '/' :: cs1 =>
      match parseRegexTok cs1 with
      | some (re, '/' :: rest) => some ("/" ++ re ++ "/", rest)
      | _ => none
    | _ => none

/-- Canonical text of one `BindParameter`: the `" "*` after the colon is
replaced by exactly one space. -/
def canonParam (cs : List Char) : Option (String × List Char) :=
  match parseIdent cs with
  | some (id, ':' :: cs1) =>
    match canonValue (skipSpaces cs1) with
    | some (v, cs2) => some (id ++ ": " ++ v, cs2)
    | none => none
  | _ => none

/-- Canonical text of the parameters after the first one: each is joined
by `", "` whether the input wrote a comma (with any spacing) or started a
new juxtaposed group. -/
def canonParamsAux : Nat → List Char → Option (String × List Char)
  | 0, _ => none
  | fuel + 1, cs =>
    match cs with
    | ',' :: cs1 =>
      match canonParam (skipSpaces cs1) with
      | some (p, cs2) =>
        match canonParamsAux fuel cs2 with
        | some (ps, rest) => some (", " ++ p ++ ps, rest)
        | none => none
      | none => some ("", cs)
    | _ =>
      match canonParam cs with
      | some (p, cs2) =>
        match canonParamsAux fuel cs2 with
        | some (ps, rest) => some (", " ++ p ++ ps, rest)
        | none => none
      | none => some ("", cs)

/-- Canonical text of a `BindParameters` production. -/
def canonParams (fuel : Nat) (cs : List Char) :
    Option (String × List Char) :=
  match canonParam cs with
  | some (p, cs1) =>
    match canonParamsAux fuel cs1 with
    | some (ps, rest) => some (p ++ ps, rest)
    | none => none
  | none => none

/-- Canonical text of one element. -/
def canonElement (fuel : Nat) (cs : List Char) :
    Option (String × List Char) :=
  match cs with
  | '{' :: cs1 =>
    match parseIdent cs1 with
    | some (id, '}' :: cs2) => some ("\x7b" ++ id ++ "\x7d", cs2)
    | _ =>
      match canonParams fuel cs1 with
      | some (ps, '}' :: cs2) => some ("\x7b" ++ ps ++ "\x7d", cs2)
      | _ => none
  | _ =>
    match parseIdent cs with
    | some (id, rest) => some (id, rest)
    | none => none

/-- Canonical text of `Element*`. -/
def canonElementsAux : Nat → List Char → (String × List Char)
  | 0, cs => ("", cs)
  | fuel + 1, cs =>
    match canonElement (fuel + 1) cs with
    | some (e, cs1) =>
      match canonElementsAux fuel cs1 with
      | (es, rest) => (e ++ es, rest)
    | none => ("", cs)

/-- Canonical text of one segment. -/
def canonSegment (fuel : Nat) (cs : List Char) :
    Option (String × List Char) :=
  match cs with
  | '/' :: cs1 =>
    match cs1 with
    | '?' :: cs2 =>
      match canonElementsAux fuel cs2 with
      | (es, rest) => some ("/?" ++ es, rest)
    | _ =>
      match canonElementsAux fuel cs1 with
      | (es, rest) => some ("/" ++ es, rest)
  | _ => none

/-- Canonical text of `Segment+`. -/
def canonSegmentsAux : Nat → List Char → (String × List Char)
  | 0, cs => ("", cs)
  | fuel + 1, cs =>
    match canonSegment (fuel + 1) cs with
    | some (s, cs1) =>
      match canonSegmentsAux fuel cs1 with
      | (ss, rest) => (s ++ ss, rest)
    | none => ("", cs)

/-- Canonical text of an accepted route string (`none` when the parser in
this file rejects the input or consumes nothing). -/
def canonRouteCs (cs : List Char) : Option String :=
  match canonSegmentsAux (cs.length + 1) cs with
  | (ss, rest) =>
    if ss.isEmpty then none
    else if rest.isEmpty then some ss else none

/-- Canonical text on a `String`. -/
def canonRouteStr (s : String) : Option String :=
  canonRouteCs s.data

/-- The canonical rendering of the bind parameters after the first one:
each is preceded by `", "` (the emission shape of `canonParamsAux`). -/
def paramsSuffixString : List BindParameter → String
  | [] => ""
  | p :: rest => ", " ++ bindParameterString p ++ paramsSuffixString rest

/-! ## Injector (inject/inject.go)

`reflect.Type` becomes an opaque handle with a kind bit and a printable
name; the `Implements` relation of the reflect package is an abstract
parameter.  `reflect.Value`s are opaque tokens (`Nat`); an invalid value
is `none`.  The Go map `values` is an association list (one binding per
key; the list order stands in for Go's undefined iteration order). -/

/-- An opaque reflective type handle. -/
structure GoType where
  uid : Nat
  isInterface : Bool
  name : String
deriving DecidableEq, Repr

/-- The injector.  The Go struct holds its own value map and an optional
parent injector; since `Value` only ever walks the parent chain, the
chain is represented directly: the injector's own store first, then the
stores of its ancestors (an empty tail is a nil parent). -/
structure Injector where
  chain : List (List (GoType × Nat))
deriving Repr

/-- Exact-key lookup `inj.values[t]` (one binding per key). -/
def lookupExact (vals : List (GoType × Nat)) (t : GoType) : Option Nat :=
  (vals.find? (fun p => p.1 = t)).map (·.2)

/-- The interface scan `for k, v := range inj.values { if k.Implements(t) }`:
the first stored value (in iteration order) whose key implements `t`. -/
def findImplementor (impls : GoType → GoType → Bool)
    (vals : List (GoType × Nat)) (t : GoType) : Option Nat :=
  (vals.find? (fun p => impls p.1 t)).map (·.2)

/-- `injector.Value` along the chain of stores: exact key, else the
interface scan when `t` is an interface, else the parent (the rest of
the chain), else the not-found (invalid) value. -/
def valueChain (impls : GoType → GoType → Bool) :
    List (List (GoType × Nat)) → GoType → Option Nat
  | [], _ => Option.none
  | vals :: rest, t =>
    match lookupExact vals t with
    | some v => some v
    | Option.none =>
      match (if t.isInterface then findImplementor impls vals t else Option.none) with
      | some v => some v
      | Option.none => valueChain impls rest t

/-- `injector.Value` from inject.go. -/
def Injector.Value (impls : GoType → GoType → Bool) (inj : Injector)
    (t : GoType) : Option Nat :=
  valueChain impls inj.chain t

/-- `Map` stores a value under its concrete type (overwriting an existing
binding, as a Go map assignment does). -/
def setBinding (vals : List (GoType × Nat)) (t : GoType) (v : Nat) :
    List (GoType × Nat) :=
  if (vals.find? (fun p => p.1 = t)).isSome
  then vals.map (fun p => if p.1 = t then (t, v) else p)
  else vals ++ [(t, v)]

/-- A handler value passed to `Invoke`: either a function with its formal
parameter types and a body, or a non-function value of some type. -/
inductive HandlerV where
  | fn (params : List GoType) (body : List Nat → List Nat)
  | nonFn (t : GoType)

/-- Outcome of `injector.Invoke`. -/
inductive InvokeResult where
  | panicked (msg : String)
  | failed (msg : String)
  | ok (rets : List Nat)
deriving Repr

/-- The argument-resolution loop shared by `fastInvoke` and `callInvoke`:
for each formal parameter type, look the value up; stop at the first
missing one. -/
def resolveArgs (impls : GoType → GoType → Bool) (inj : Injector) :
    List GoType → GoType ⊕ List Nat
  | [] => .inr []
  | t :: ts =>
    match inj.Value impls t with
    | none => .inl t
    | some v =>
      match resolveArgs impls inj ts with
      | .inl missing => .inl missing
      | .inr vs => .inr (v :: vs)

/-- `injector.Invoke`.  For a non-function, `t.NumIn()` panics inside the
reflect package with its own message; for a function, a missing
dependency yields the error `value not found for type T`, and otherwise
the function is called on the resolved arguments.  The `FastInvoker`
branch differs from `callInvoke` only in the call mechanism, which this
model does not distinguish. -/
def Injector.Invoke (impls : GoType → GoType → Bool) (inj : Injector)
    (f : HandlerV) : InvokeResult :=
  match f with
  | .nonFn t => .panicked ("reflect: NumIn of non-func type " ++ t.name)
  | .fn params body =>
    match resolveArgs impls inj params with
    | .inl missing => .failed ("value not found for type " ++ missing.name)
    | .inr args => .ok (body args)

/-- `validateAndWrapHandler` from handler.go: panics on a non-function;
the wrapping of the three common handler shapes into built-in fast
invokers changes only the call mechanism, not the behavior modeled
here, so the handler is returned unchanged. -/
def validateAndWrapHandler (h : HandlerV) : Except String HandlerV :=
  match h with
  | .nonFn _ => .error "handler must be a callable function"
  | .fn .. => .ok h

/-! ## ResponseWriter wrapper (response_writer.go)

Before-write hooks receive the wrapper and are modeled as state
transformers.  The underlying `http.ResponseWriter` is modeled by the
`underlyingStatus`/`underlyingBody` fields; its `Write` is assumed to
write fully and return `len(b)` (the usual behavior). -/

/-- State of `responseWriter`.  A before-write hook receives the wrapper
and may transform it; since a structure cannot contain its own
endomorphisms, hooks are abstract tokens of a type `H` interpreted by an
`applyHook` function carried alongside. -/
structure RWState (H : Type) where
  method : String
  status : Nat
  size : Nat
  beforeFuncs : List H
  onceUsed : Bool
  underlyingStatus : Option Nat
  underlyingBody : List Nat

/-- `NewResponseWriter`. -/
def newResponseWriter (H : Type) (method : String) : RWState H :=
  { method := method, status := 0, size := 0, beforeFuncs := [],
    onceUsed := false, underlyingStatus := none, underlyingBody := [] }

/-- `Written()`: the status has been set. -/
def RWState.written {H : Type} (w : RWState H) : Bool :=
  w.status ≠ 0

/-- `callBefore`: hooks run in LIFO order (`for i := len-1; i >= 0; i--`). -/
def RWState.callBefore {H : Type} (applyHook : H → RWState H → RWState H)
    (w : RWState H) : RWState H :=
  w.beforeFuncs.reverse.foldl (fun st f => applyHook f st) w

/-- `WriteHeader`: a single-shot guard (`sync.Once`), a `Written` check,
the hooks, the underlying `WriteHeader`, then the status store. -/
def RWState.writeHeader {H : Type} (applyHook : H → RWState H → RWState H)
    (w : RWState H) (s : Nat) : RWState H :=
  if w.onceUsed then w
  else
    let w1 := { w with onceUsed := true }
    if w1.written then w1
    else
      let w2 := RWState.callBefore applyHook w1
      { w2 with underlyingStatus := some s, status := s }

/-- `Write`: sets status 200 when unwritten, then transmits the body and
accumulates the size, except when the request method is HEAD, in which
case nothing is transmitted and the returned size is 0. -/
def RWState.write {H : Type} (applyHook : H → RWState H → RWState H)
    (w : RWState H) (b : List Nat) : RWState H × Nat :=
  let w1 := if !w.written then RWState.writeHeader applyHook w 200 else w
  if w1.method ≠ "HEAD" then
    ({ w1 with underlyingBody := w1.underlyingBody ++ b,
               size := w1.size + b.length }, b.length)
  else (w1, 0)

/-- `Before`: stacks a hook. -/
def RWState.before {H : Type} (w : RWState H) (f : H) : RWState H :=
  { w with beforeFuncs := w.beforeFuncs ++ [f] }

/-! ## Context chain runtime (context.go)

A handler body is a straight-line program of abstract actions: `emit`
appends to an observation log (the side buffer of the middleware-order
test), `next` calls `Context.Next()`, and `writeResp` marks the response
as written (what a write through the `ResponseWriter` does).  The model
records in `invoked` which handler slot the loop selected, in order.
Handlers in this model always resolve (the missing-dependency panic of
`run` belongs to the injector, settled separately), and return no
values, so the `ReturnHandler` dispatch step is a no-op. -/

/-- One action of a handler body. -/
inductive HAct where
  | emit (s : String)
  | next
  | writeResp
deriving DecidableEq, Repr

/-- A handler body. -/
abbrev Prog := List HAct

/-- The observable state of the chain runtime. -/
structure ChainState where
  index : Nat
  logs : List String
  written : Bool
  cancelled : Bool
  invoked : List Nat
deriving DecidableEq, Repr

/-- The initial chain state (`createContext` with index 0). -/
def initChain : ChainState :=
  { index := 0, logs := [], written := false, cancelled := false,
    invoked := [] }

/-- Execution of a handler body, parameterized by the continuation `k`
that re-enters `context.run` when the body calls `Next()` (after
incrementing the index). -/
def execWith (k : ChainState → ChainState) : Prog → ChainState → ChainState
  | [], st => st
  | a :: rest, st =>
    match a with
    | .emit s => execWith k rest { st with logs := st.logs ++ [s] }
    | .writeResp => execWith k rest { st with written := true }
    | .next => execWith k rest (k { st with index := st.index + 1 })

/-- `context.run`: while `index <= len(handlers)`, stop on cancellation,
select the `index`-th handler or the action at `index == len(handlers)`,
return (advancing) on an empty slot, invoke the handler, advance, and
stop once the response has been written.  The fuel bounds the depth of
nested `Next()` re-entries; every statement below supplies enough. -/
def runChain : Nat → List Prog → Option Prog → ChainState → ChainState
  | 0, _, _, st => st
  | fuel + 1, hs, act, st =>
    if st.index ≤ hs.length then
      if st.cancelled then st
      else
        match (if st.index = hs.length then act else hs[st.index]?) with
        | none => { st with index := st.index + 1 }
        | some p =>
          let st1 := execWith (runChain fuel hs act) p
            { st with invoked := st.invoked ++ [st.index] }
          let st2 := { st1 with index := st1.index + 1 }
          if st2.written then st2 else runChain fuel hs act st2
    else st

/-- Run a chain from the initial state with ample fuel; mirrors
`context.run()` as called by the router on a matched route. -/
def runHandlers (hs : List Prog) (act : Option Prog) : ChainState :=
  runChain (((hs.map List.length).sum + (act.getD []).length + hs.length) * 2 + 8)
    hs act initChain

/-! ## Match styles, header matcher, leaves (internal/route/leaf.go, header.go)

Compiled regular expressions are abstract: nodes keep the pattern string,
and matching is parameterized by an engine supplying `MatchString` and
`FindStringSubmatch` (`regexp` is an external library; `Compile` is
modeled as always succeeding, which only widens the set of accepted
`AddRoute` sequences and is irrelevant to every concrete route used
here, none of which carries an invalid pattern). -/

/-- `MatchStyle`; the declaration order determines the matching
priority. -/
inductive MatchStyle where
  | none
  | static
  | regex
  | placeholder
  | all
deriving DecidableEq, Repr

/-- The underlying `int8` value of a match style. -/
def MatchStyle.rank : MatchStyle → Nat
  | .none => 0
  | .static => 1
  | .regex => 2
  | .placeholder => 3
  | .all => 4

/-- An abstract engine for the external `regexp` package. -/
structure RegexEngine where
  matchString : String → String → Bool
  findSubmatch : String → String → Option (List String)

/-- A request header, `http.Header`, as an association list; `Get`
returns the first value set for a name, or the empty string. -/
def headerGet (h : List (String × String)) (name : String) : String :=
  match h.find? (fun p => p.1 = name) with
  | some p => p.2
  | none => ""

/-- `HeaderMatcher.Match` from header.go: every listed header must have a
non-empty value that the corresponding regex matches. -/
def headerMatcherMatch (eng : RegexEngine) (m : List (String × String))
    (h : List (String × String)) : Bool :=
  m.all (fun nr => headerGet h nr.1 ≠ "" && eng.matchString nr.2 (headerGet h nr.1))

/-- The style-specific payload of a leaf. -/
inductive LeafKind where
  | lstatic (literals : String)
  | lregex (pattern : String) (binds : List String)
  | lplaceholder (bind : String)
  | lmatchAll (bind : String) (capture : Int)
deriving DecidableEq, Repr

/-- A leaf.  `lid` models Go pointer identity (`Route.Headers` mutates
the leaf objects shared between the tree and the router's fast map);
`chainStyles` records the match styles of the parent chain at creation
time (nearest parent first, ending at the root), which is what the
`Static()` ancestor walk reads — ancestor styles never change. -/
structure Leaf where
  lid : Nat
  route : Route
  segment : Segment
  handlerId : Nat
  kind : LeafKind
  headerMatcher : Option (List (String × String))
  chainStyles : List MatchStyle
deriving DecidableEq, Repr

/-- `getMatchStyle` of a leaf. -/
def Leaf.style (l : Leaf) : MatchStyle :=
  match l.kind with
  | .lstatic _ => .static
  | .lregex _ _ => .regex
  | .lplaceholder _ => .placeholder
  | .lmatchAll _ _ => .all

/-- `Leaf.Route()`: the string of the originating route. -/
def Leaf.routeStr (l : Leaf) : String :=
  routeString l.route

/-- `Leaf.Static()`: true for a static leaf all of whose ancestors have
style at most static (`baseLeaf.Static()` is false for other kinds). -/
def Leaf.static (l : Leaf) : Bool :=
  match l.kind with
  | .lstatic _ => l.chainStyles.all (fun st => st.rank ≤ MatchStyle.static.rank)
  | _ => false

/-- `baseLeaf.matchHeader`. -/
def Leaf.matchHeader (eng : RegexEngine) (l : Leaf)
    (header : List (String × String)) : Bool :=
  match l.headerMatcher with
  | Option.none => true
  | some m => headerMatcherMatch eng m header

/-- `strings.TrimLeft(s, cutset)`. -/
def trimLeftSet (s : String) (cutset : List Char) : String :=
  String.mk (s.data.dropWhile (· ∈ cutset))

/-- `isMatchStyleStatic` from leaf.go. -/
def isMatchStyleStatic (s : Segment) : Bool :=
  match s.elements with
  | [e] => e.ident.isSome
  | _ => false

/-- `checkMatchStylePlaceholder` from leaf.go: a single `{ident}` element
whose identifier is not the special `**`. -/
def checkMatchStylePlaceholder (s : Segment) : Option String :=
  match s.elements with
  | [e] =>
    match e.bindIdent with
    | some b => if b ≠ "**" then some b else Option.none
    | Option.none => Option.none
  | _ => Option.none

/-- `strconv.Atoi` with the error ignored (`capture, _ = strconv.Atoi`):
an optional sign followed by digits, anything else giving 0. -/
def atoiOr0 (s : String) : Int :=
  let digitsVal : List Char → Int := fun ds =>
    Int.ofNat (ds.foldl (fun n c => n * 10 + (c.toNat - 48)) 0)
  match s.data with
  | [] => 0
  | c :: rest =>
    if c = '-' then
      if !rest.isEmpty && rest.all isAsciiDigit then -(digitsVal rest) else 0
    else if c = '+' then
      if !rest.isEmpty && rest.all isAsciiDigit then digitsVal rest else 0
    else
      if (c :: rest).all isAsciiDigit then digitsVal (c :: rest) else 0

/-- `checkMatchStyleAll` from leaf.go: the `{**}` shorthand, or a first
bind parameter with literal value `**`, with an optional
`capture: N` second parameter. -/
def checkMatchStyleAll (s : Segment) : Option (String × Int) :=
  match s.elements with
  | e :: restElems =>
    if restElems.isEmpty && e.bindIdent = some "**" && e.bindParameters = Option.none
    then some ("**", 0)
    else
      match e.bindParameters with
      | Option.none => Option.none
      | some ps =>
        match ps.parameters with
        | [] => Option.none
        | p0 :: prest =>
          if p0.value.literal ≠ some "**" then Option.none
          else
            let capture :=
              match prest with
              | p1 :: _ =>
                if p1.ident = "capture" then
                  match p1.value.literal with
                  | some lit => atoiOr0 lit
                  | Option.none => 0
                else 0
              | [] => 0
            some (p0.ident, capture)
  | [] => Option.none

/-- Escape literal dots for a regex, `strings.ReplaceAll(lit, ".", "\.")`. -/
def escapeDots (s : String) : String :=
  String.mk (s.data.flatMap (fun c => if c = '.' then ['\\', '.'] else [c]))

/-- Construction errors and panics of the route tree (the Go errors also
carry byte positions and route strings, which the claims do not
inspect). -/
inductive AddErr where
  | emptySegment
  | emptySegmentElement
  | nonRegexLiteral
  | duplicatedRoute
  | duplicatedMatchAllParam
  | duplicatedBind (b : String)
  | duplicatedMatchAllStyle
  | onlyLastSegmentOptional
  | emptyRoute
  | nilSegmentPanic
deriving DecidableEq, Repr

/-- `constructMatchStyleRegex` from leaf.go: concatenate the elements
into one anchored pattern, collecting bind names in submatch order. -/
def constructMatchStyleRegex (s : Segment) :
    Except AddErr (String × List String) := do
  let mut binds : List String := []
  let mut buf : String := "^"
  for e in s.elements do
    match e.ident with
    | some lit =>
      buf := buf ++ escapeDots lit
    | Option.none =>
      match e.bindIdent with
      | some b =>
        binds := binds ++ [b]
        buf := buf ++ "(.+)"
      | Option.none =>
        match e.bindParameters with
        | Option.none => throw .emptySegmentElement
        | some ps =>
          if ps.parameters.isEmpty then throw .emptySegmentElement
          for p in ps.parameters do
            match p.value.regex with
            | Option.none => throw .nonRegexLiteral
            | some re =>
              binds := binds ++ [p.ident]
              buf := buf ++ "(" ++ re ++ ")"
  return (buf ++ "$", binds)

/-- `newLeaf` from leaf.go.  `chain` is the styles of the parent chain
(nearest first), `parentBinds` the bind parameters collected by
`getParentBindSet`. -/
def newLeaf (chain : List MatchStyle) (parentBinds : List String) (lid : Nat)
    (r : Route) (s : Segment) (h : Nat) : Except AddErr Leaf :=
  if s.elements.isEmpty || isMatchStyleStatic s then
    .ok { lid := lid, route := r, segment := s, handlerId := h,
          kind := .lstatic (trimLeftSet (segmentString s) ['/', '?']),
          headerMatcher := Option.none, chainStyles := chain }
  else
    match checkMatchStylePlaceholder s with
    | some bind =>
      if parentBinds.contains bind then .error (.duplicatedBind bind)
      else .ok { lid := lid, route := r, segment := s, handlerId := h,
                 kind := .lplaceholder bind, headerMatcher := Option.none,
                 chainStyles := chain }
    | Option.none =>
      match checkMatchStyleAll s with
      | some (bind, capture) =>
        if parentBinds.contains bind then .error (.duplicatedBind bind)
        else .ok { lid := lid, route := r, segment := s, handlerId := h,
                   kind := .lmatchAll bind capture, headerMatcher := Option.none,
                   chainStyles := chain }
      | Option.none =>
        match constructMatchStyleRegex s with
        | .error e => .error e
        | .ok (pat, binds) =>
          match binds.find? (fun b => parentBinds.contains b) with
          | some b => .error (.duplicatedBind b)
          | Option.none =>
            .ok { lid := lid, route := r, segment := s, handlerId := h,
                  kind := .lregex pat binds, headerMatcher := Option.none,
                  chainStyles := chain }

/-! ## The route tree (internal/route/tree.go) -/

/-- The style-specific payload of a tree node; `troot` is the `baseTree`
returned by `NewTree` (match style "none"). -/
inductive TreeKind where
  | troot
  | tstatic
  | tregex (pattern : String) (binds : List String)
  | tplaceholder (bind : String)
  | tmatchAll (bind : String) (capture : Int)
deriving DecidableEq, Repr

/-- A tree node: its kind, the segment it derives from (`none` only at
the root), and the ordered children lists. -/
inductive Tree where
  | mk (kind : TreeKind) (segment : Option Segment)
      (subtrees : List Tree) (leaves : List Leaf)
deriving Repr

/-- The kind of a tree. -/
def Tree.kind : Tree → TreeKind
  | .mk k _ _ _ => k

/-- The segment of a tree. -/
def Tree.segment : Tree → Option Segment
  | .mk _ s _ _ => s

/-- The subtree children. -/
def Tree.subtrees : Tree → List Tree
  | .mk _ _ sts _ => sts

/-- The leaf children. -/
def Tree.leaves : Tree → List Leaf
  | .mk _ _ _ ls => ls

/-- `getMatchStyle` of a tree. -/
def Tree.style (t : Tree) : MatchStyle :=
  match t.kind with
  | .troot => .none
  | .tstatic => .static
  | .tregex _ _ => .regex
  | .tplaceholder _ => .placeholder
  | .tmatchAll _ _ => .all

/-- `getBinds` of a tree. -/
def Tree.binds (t : Tree) : List String :=
  match t.kind with
  | .troot => []
  | .tstatic => []
  | .tregex _ bs => bs
  | .tplaceholder b => [b]
  | .tmatchAll b _ => [b]

/-- `NewTree`. -/
def newTreeRoot : Tree :=
  .mk .troot Option.none [] []

/-- `getSegment().String()` of a subtree (subtrees always carry a
segment; the root never appears in a subtree list). -/
def treeSegStr (t : Tree) : String :=
  match t.segment with
  | some s => segmentString s
  | Option.none => ""

/-- `hasMatchAllSubtree`: the last subtree has the match-all style. -/
def Tree.hasMatchAllSubtree (t : Tree) : Bool :=
  match t.subtrees.getLast? with
  | some st => st.style = .all
  | Option.none => false

/-- `hasMatchAllLeaf`: the last leaf has the match-all style. -/
def Tree.hasMatchAllLeaf (t : Tree) : Bool :=
  match t.leaves.getLast? with
  | some l => l.style = .all
  | Option.none => false

/-- `newTree` from tree.go.  `chain`/`parentBinds` are the parent-chain
styles and bind parameters (the ancestor walks of the source). -/
def newTree (chain : List MatchStyle) (parentBinds : List String)
    (s : Segment) : Except AddErr Tree :=
  if s.elements.isEmpty then .error .emptySegment
  else if isMatchStyleStatic s then
    .ok (.mk .tstatic (some s) [] [])
  else
    match checkMatchStylePlaceholder s with
    | some bind =>
      if parentBinds.contains bind then .error (.duplicatedBind bind)
      else .ok (.mk (.tplaceholder bind) (some s) [] [])
    | Option.none =>
      match checkMatchStyleAll s with
      | some (bind, capture) =>
        if parentBinds.contains bind then .error (.duplicatedBind bind)
        else if chain.contains .all then .error .duplicatedMatchAllStyle
        else .ok (.mk (.tmatchAll bind capture) (some s) [] [])
      | Option.none =>
        match constructMatchStyleRegex s with
        | .error e => .error e
        | .ok (pat, binds) =>
          match binds.find? (fun b => parentBinds.contains b) with
          | some b => .error (.duplicatedBind b)
          | Option.none => .ok (.mk (.tregex pat binds) (some s) [] [])

/-- The priority insertion of `addLeaf`/`addSubtree`: the new entry goes
before the first existing entry of strictly greater match style (so after
every entry of its own style). -/
def insertLeafOrdered (leaves : List Leaf) (l : Leaf) : List Leaf :=
  let i := leaves.findIdx (fun x => l.style.rank < x.style.rank)
  leaves.take i ++ [l] ++ leaves.drop i

/-- The same insertion for subtrees. -/
def insertTreeOrdered (subtrees : List Tree) (st : Tree) : List Tree :=
  let i := subtrees.findIdx (fun x => st.style.rank < x.style.rank)
  subtrees.take i ++ [st] ++ subtrees.drop i

/-- The body of `addLeaf` up to the optional-segment handling: duplicate
check, leaf creation, match-all uniqueness check.  Returns the updated
tree and the created leaf; `pendingOptional` is true when the segment is
optional and the tree has a parent — the full leaf is then NOT yet
inserted, and the caller (the stack frame owning the parent tree, see
`addSubtree`) must first install the extra leaf on itself and then insert
this one, which is exactly the order of effects of the Go code.  When
the tree has no parent (the root), the source calls itself with the
root's nil segment and dereferences it: `nilSegmentPanic`. -/
def addLeafCore (t : Tree) (hasParent : Bool) (chain : List MatchStyle)
    (parentBinds : List String) (r : Route) (s : Segment) (h : Nat)
    (lid : Nat) : Tree × Except AddErr Leaf × Bool :=
  if t.leaves.any (fun l => segmentString l.segment = segmentString s) then
    (t, .error .duplicatedRoute, false)
  else
    match newLeaf chain parentBinds lid r s h with
    | .error e => (t, .error e, false)
    | .ok leaf =>
      if leaf.style = .all && t.hasMatchAllLeaf then
        (t, .error .duplicatedMatchAllParam, false)
      else if s.optional then
        if hasParent then (t, .ok leaf, true)
        else (t, .error .nilSegmentPanic, false)
      else
        (.mk t.kind t.segment t.subtrees (insertLeafOrdered t.leaves leaf),
          .ok leaf, false)

/-- Insert an already-created leaf into a tree's leaf list (the final
step of `addLeaf`, deferred for optional segments). -/
def insertLeafInto (t : Tree) (l : Leaf) : Tree :=
  .mk t.kind t.segment t.subtrees (insertLeafOrdered t.leaves l)

/-- Replace the `i`-th subtree (the functional image of Go's in-place
mutation of a subtree reached through the list). -/
def replaceSub (t : Tree) (i : Nat) (st : Tree) : Tree :=
  .mk t.kind t.segment (t.subtrees.set i st) t.leaves

/-- `addSubtree` from tree.go: find or create the child subtree whose
segment string equals `s`'s, then add the rest of the route below it —
the descent into the rest is the continuation `go` (`addNextSegment` on
the remaining segments).  When the recursion reports a pending optional
leaf, this frame performs the extra `addLeaf` on itself — the
grandparent of the full leaf — with the subtree's own segment, and only
on success inserts the full leaf into the subtree (`add optional leaf
to grandparent`).  A new subtree stays inserted even when the recursion
below it fails, as in the source, where it is linked into the list
before the recursive call. -/
def addSubtree
    (go : Tree → Bool → List MatchStyle → List String → Nat →
      Tree × Except AddErr Leaf × Bool)
    (t0 : Tree) (hasParent0 : Bool) (chain0 : List MatchStyle)
    (parentBinds0 : List String) (r : Route) (s : Segment) (h : Nat)
    (lid : Nat) : Tree × Except AddErr Leaf × Bool :=
  let i := t0.subtrees.findIdx (fun st => treeSegStr st = segmentString s)
  if i < t0.subtrees.length then
    let st := t0.subtrees.getD i newTreeRoot
    let out := go st true (st.style :: chain0) (st.binds ++ parentBinds0) lid
    match out with
    | (st1, .ok leaf, true) =>
      match st.segment with
      | some ps =>
        let outExtra := addLeafCore t0 hasParent0 chain0 parentBinds0 r ps h (lid + 1)
        match outExtra with
        | (t0a, .ok _, false) =>
          (replaceSub t0a i (insertLeafInto st1 leaf), .ok leaf, false)
        | (t0a, .error e, _) => (replaceSub t0a i st1, .error e, false)
        | (t0a, .ok _, true) =>
          -- Unreachable: the subtree segment of a built tree is never
          -- optional, since addNextSegment rejects non-terminal optional
          -- segments.
          (replaceSub t0a i st1, .error .onlyLastSegmentOptional, false)
      | Option.none =>
        -- Unreachable: every subtree carries a segment.
        (t0, .error .nilSegmentPanic, false)
    | (st1, res, _) => (replaceSub t0 i st1, res, false)
  else
    match newTree chain0 parentBinds0 s with
    | .error e => (t0, .error e, false)
    | .ok st =>
      if st.style = .all && t0.hasMatchAllSubtree then
        (t0, .error .duplicatedMatchAllParam, false)
      else
        let out := go st true (st.style :: chain0) (st.binds ++ parentBinds0) lid
        match out with
        | (st1, .ok leaf, true) =>
          let outExtra := addLeafCore t0 hasParent0 chain0 parentBinds0 r s h (lid + 1)
          match outExtra with
          | (t0a, .ok _, false) =>
            (.mk t0a.kind t0a.segment
              (insertTreeOrdered t0a.subtrees (insertLeafInto st1 leaf))
              t0a.leaves, .ok leaf, false)
          | (t0a, .error e, _) =>
            (.mk t0a.kind t0a.segment (insertTreeOrdered t0a.subtrees st1)
              t0a.leaves, .error e, false)
          | (t0a, .ok _, true) =>
            (.mk t0a.kind t0a.segment (insertTreeOrdered t0a.subtrees st1)
              t0a.leaves, .error .onlyLastSegmentOptional, false)
        | (st1, res, _) =>
          (.mk t0.kind t0.segment (insertTreeOrdered t0.subtrees st1)
            t0.leaves, res, false)

/-- `addNextSegment` from tree.go, recursing on the remaining segments:
the terminal segment becomes a leaf, a non-terminal optional segment is
an error, anything else descends into a subtree.  `hasParent` records
whether `t` has a parent (false exactly at the root), `chain` the styles
of `t` and its ancestors (nearest first), `parentBinds` their bind
parameters.  The third component of the result is the pending-optional
flag of `addLeafCore`, handled by the `addSubtree` frame that owns `t`'s
parent. -/
def addNextSegment (r : Route) (h : Nat) :
    List Segment → Tree → Bool → List MatchStyle → List String → Nat →
    Tree × Except AddErr Leaf × Bool
  | [], t, _, _, _, _ => (t, .error .emptyRoute, false)
  | [s], t, hasParent, chain, parentBinds, lid =>
    addLeafCore t hasParent chain parentBinds r s h lid
  | s :: s2 :: rest, t, hasParent, chain, parentBinds, lid =>
    if s.optional then (t, .error .onlyLastSegmentOptional, false)
    else
      addSubtree (addNextSegment r h (s2 :: rest)) t hasParent chain
        parentBinds r s h lid

/-- `AddRoute` from tree.go.  `lid` is the identity tag of the created
leaf (the extra leaf of an optional terminal segment gets `lid + 1`);
the tree is returned also on error, reflecting the partial in-place
mutation of the source. -/
def addRouteT (t : Tree) (r : Route) (h : Nat) (lid : Nat) :
    Tree × Except AddErr Leaf :=
  if r.segments.isEmpty then (t, .error .emptyRoute)
  else
    match addNextSegment r h r.segments t false [MatchStyle.none] [] lid with
    | (t1, res, _) => (t1, res)

/-! ## Matching (internal/route/tree.go) -/

/-- A `Params` map as an association list with overwriting updates. -/
abbrev Params := List (String × String)

/-- `params[k] = v`. -/
def paramsSet (ps : Params) (k v : String) : Params :=
  if (ps.find? (fun p => p.1 = k)).isSome then
    ps.map (fun p => if p.1 = k then (k, v) else p)
  else ps ++ [(k, v)]

/-- `for i, bind := range binds { params[bind] = submatches[i+1] }`
(`subs` is already the submatch list without the whole match). -/
def fillBinds (ps : Params) (binds : List String) (subs : List String) : Params :=
  (binds.zip subs).foldl (fun acc bv => paramsSet acc bv.1 bv.2) ps

/-- `leaf.match(segment, params, header)` for each leaf kind. -/
def leafMatchSeg (eng : RegexEngine) (l : Leaf) (segment : String)
    (params : Params) (header : List (String × String)) : Option Params :=
  match l.kind with
  | .lstatic lits =>
    if lits = segment && l.matchHeader eng header then some params else Option.none
  | .lregex pat binds =>
    let subs := (eng.findSubmatch pat segment).getD []
    if subs.length < binds.length + 1 then Option.none
    else if !(l.matchHeader eng header) then Option.none
    else some (fillBinds params binds (subs.drop 1))
  | .lplaceholder bind =>
    if l.matchHeader eng header then some (paramsSet params bind segment)
    else Option.none
  | .lmatchAll bind _ =>
    if l.matchHeader eng header then some (paramsSet params bind segment)
    else Option.none

/-- `matchAllLeaf.matchAll`: absorb the remainder of the path, subject to
the capture limit; `next - 1` points at the slash before the current
segment, so the count equals the number of remaining segments. -/
def leafMatchAllRemainder (eng : RegexEngine) (l : Leaf) (path : List Char)
    (segment : String) (next : Nat) (params : Params)
    (header : List (String × String)) : Option Params :=
  match l.kind with
  | .lmatchAll bind capture =>
    let cnt : Int := Int.ofNat ((path.drop (next - 1)).count '/' + 1)
    if capture > 0 && capture < cnt then Option.none
    else if !(l.matchHeader eng header) then Option.none
    else some (paramsSet params bind (segment ++ "/" ++ String.mk (path.drop next)))
  | _ => Option.none

/-- `baseTree.matchLeaf`: the first leaf (in priority order) that
matches wins; a failing leaf leaves the params untouched. -/
def matchLeafList (eng : RegexEngine) (leaves : List Leaf) (segment : String)
    (params : Params) (header : List (String × String)) :
    Option Leaf × Params :=
  match leaves with
  | [] => (Option.none, params)
  | l :: rest =>
    match leafMatchSeg eng l segment params header with
    | some ps => (some l, ps)
    | Option.none => matchLeafList eng rest segment params header

/-- `tree.match(segment, params)` for each tree kind.  The match-all
style is handled by `matchAll` in `matchSubtree` and the root is never
matched (`baseTree.match` panics "unreachable"). -/
def treeMatchSeg (eng : RegexEngine) (t : Tree) (segment : String)
    (params : Params) : Bool × Params :=
  match t.kind with
  | .tstatic => (((treeSegStr t).drop 1) = segment, params)
  | .tregex pat binds =>
    let subs := (eng.findSubmatch pat segment).getD []
    if subs.length ≠ binds.length + 1 then (false, params)
    else (true, fillBinds params binds (subs.drop 1))
  | .tplaceholder bind => (true, paramsSet params bind segment)
  | .tmatchAll _ _ => (false, params)
  | .troot => (false, params)

/-- `strings.Index(path[next:], "/")`. -/
def indexOfSlash : List Char → Option Nat
  | [] => Option.none
  | c :: rest =>
    if c = '/' then some 0 else (indexOfSlash rest).map (· + 1)

/-- The two fuel-indexed matching procedures of the descent; the Go
code recurses on the path position, which the fuel bounds. -/
structure MatchFns where
  nextSeg : Tree → List Char → Nat → Params → List (String × String) →
    Option Leaf × Params
  allLoop : Tree → List Char → String → Nat → Nat → Params →
    List (String × String) → Option Leaf × Params

/-- The subtree loop of `matchSubtree`.  A match-all subtree is the last
entry of the list when present; the loop breaks after attempting it.
Bind values written by subtrees whose continuation later failed remain
in the params (the documented backtrace leftovers). -/
def matchSubtreeList (eng : RegexEngine) (fns : MatchFns) :
    List Tree → List Char → String → Nat → Params → List (String × String) →
    Option Leaf × Params
  | [], _, _, _, params, _ => (Option.none, params)
  | st :: rest, path, segment, next, params, header =>
    if st.style = .all then
      fns.allLoop st path segment next 1 params header
    else
      match treeMatchSeg eng st segment params with
      | (false, ps) => matchSubtreeList eng fns rest path segment next ps header
      | (true, ps) =>
        match fns.nextSeg st path next ps header with
        | (some l, ps2) => (some l, ps2)
        | (Option.none, ps2) =>
          matchSubtreeList eng fns rest path segment next ps2 header

/-- `baseTree.matchSubtree`: try the subtrees in priority order, then
fall back to a trailing match-all leaf absorbing the remainder. -/
def matchSubtreeT (eng : RegexEngine) (fns : MatchFns) (t : Tree)
    (path : List Char) (segment : String) (next : Nat) (params : Params)
    (header : List (String × String)) : Option Leaf × Params :=
  match matchSubtreeList eng fns t.subtrees path segment next params header with
  | (some l, ps) => (some l, ps)
  | (Option.none, ps) =>
    match t.leaves.getLast? with
    | Option.none => (Option.none, ps)
    | some leaf =>
      if leaf.style ≠ .all then (Option.none, ps)
      else
        match leafMatchAllRemainder eng leaf path segment next ps header with
        | some ps2 => (some leaf, ps2)
        | Option.none => (Option.none, ps)

/-- One step of the matching recursion: `nextSeg` is
`baseTree.matchNextSegment` (split off the next path segment; at the
last segment try the leaves, otherwise the subtrees), `allLoop` is
`matchAllTree.matchAll` (absorb one segment at a time, within the
capture limit, until the continuation of the tree matches the rest).
Both recurse through `prev`, the procedures one fuel step down. -/
def matchStep (eng : RegexEngine) (prev : MatchFns) : MatchFns where
  nextSeg t path next params header :=
    match indexOfSlash (path.drop next) with
    | Option.none =>
      matchLeafList eng t.leaves (String.mk (path.drop next)) params header
    | some i =>
      matchSubtreeT eng prev t path (String.mk ((path.drop next).take i))
        (next + i + 1) params header
  allLoop st path segment next captured params header :=
    match st.kind with
    | .tmatchAll bind capture =>
      if capture ≤ 0 || capture ≥ Int.ofNat captured then
        match prev.nextSeg st path next params header with
        | (some l, ps) => (some l, paramsSet ps bind segment)
        | (Option.none, ps) =>
          match indexOfSlash (path.drop next) with
          | Option.none => (Option.none, ps)
          | some i =>
            prev.allLoop st path
              (segment ++ "/" ++ String.mk ((path.drop next).take i))
              (next + i + 1) (captured + 1) ps header
      else (Option.none, params)
    | _ => (Option.none, params)

/-- The matching procedures at a given fuel; out of fuel, nothing
matches. -/
def matchFns (eng : RegexEngine) : Nat → MatchFns
  | 0 =>
    { nextSeg := fun _ _ _ params _ => (Option.none, params),
      allLoop := fun _ _ _ _ _ params _ => (Option.none, params) }
  | fuel + 1 => matchStep eng (matchFns eng fuel)

/-- `baseTree.matchNextSegment` at a given fuel. -/
def matchNextSegmentT (eng : RegexEngine) (fuel : Nat) (t : Tree)
    (path : List Char) (next : Nat) (params : Params)
    (header : List (String × String)) : Option Leaf × Params :=
  (matchFns eng fuel).nextSeg t path next params header

/-- `matchAllTree.matchAll` at a given fuel. -/
def matchAllTreeLoop (eng : RegexEngine) (fuel : Nat) (st : Tree)
    (path : List Char) (segment : String) (next captured : Nat)
    (params : Params) (header : List (String × String)) :
    Option Leaf × Params :=
  (matchFns eng fuel).allLoop st path segment next captured params header

/-- A hexadecimal digit value. -/
def unhex (c : Char) : Option Nat :=
  if isAsciiDigit c then some (c.toNat - 48)
  else if ('a' ≤ c) && (c ≤ 'f') then some (c.toNat - 87)
  else if ('A' ≤ c) && (c ≤ 'F') then some (c.toNat - 55)
  else Option.none

/-- `url.PathUnescape` (stdlib): decode every `%XY`; malformed escapes
are errors.  Decoded bytes are modeled as characters, which agrees with
Go for ASCII data — no multi-byte escape appears in this development. -/
def pathUnescapeCs : List Char → Option (List Char)
  | [] => some []
  | '%' :: rest =>
    match rest with
    | a :: b :: rest2 =>
      match unhex a, unhex b with
      | some ha, some hb =>
        match pathUnescapeCs rest2 with
        | some tail => some (Char.ofNat (ha * 16 + hb) :: tail)
        | Option.none => Option.none
      | _, _ => Option.none
    | _ => Option.none
  | c :: rest =>
    match pathUnescapeCs rest with
    | some tail => some (c :: tail)
    | Option.none => Option.none

/-- `url.PathUnescape` on a `String`. -/
def pathUnescape (s : String) : Option String :=
  (pathUnescapeCs s.data).map String.mk

/-- `Tree.Match`: trim the leading slashes, run the descent, then
percent-decode each captured value (keeping the original on a decoding
error). -/
def treeMatchT (eng : RegexEngine) (t : Tree) (path : String)
    (header : List (String × String)) : Option (Leaf × Params) :=
  let cs := path.data.dropWhile (· = '/')
  match matchNextSegmentT eng (cs.length + 2) t cs 0 [] header with
  | (some l, params) =>
    some (l, params.map (fun kv => (kv.1, (pathUnescape kv.2).getD kv.2)))
  | (Option.none, _) => Option.none

/-! ## Router (router.go)

The model covers the route registration, the static fast map, header
attachment and dispatch — the parts the claims are about.  Group
nesting, the `*` method expansion, `AutoHead`, named routes and the
handler-wrapping pipeline are orthogonal bookkeeping around the same
`addRoute` core and are not modeled.  Go panics during registration
(unknown method, parse error, `AddRoute` error) make `applyOp` return
`none`. -/

/-- The recognized HTTP methods (RFC 7231 and RFC 5789). -/
def httpMethods : List String :=
  ["GET", "POST", "PUT", "DELETE", "PATCH", "OPTIONS", "HEAD", "CONNECT", "TRACE"]

/-- Lookup in a string-keyed association list (a Go map). -/
def assocGet {α : Type} (m : List (String × α)) (k : String) : Option α :=
  (m.find? (fun p => p.1 = k)).map (·.2)

/-- Update in a string-keyed association list (`m[k] = v`). -/
def assocSet {α : Type} (m : List (String × α)) (k : String) (v : α) :
    List (String × α) :=
  if (m.find? (fun p => p.1 = k)).isSome then
    m.map (fun p => if p.1 = k then (k, v) else p)
  else m ++ [(k, v)]

/-- Deletion from a string-keyed association list (`delete(m, k)`). -/
def assocDel {α : Type} (m : List (String × α)) (k : String) :
    List (String × α) :=
  m.filter (fun p => p.1 ≠ k)

/-- The router state: per-method route trees, the per-method static fast
map (full route path to leaf), and the next leaf identity tag (Go
pointer identity). -/
structure RouterSt where
  routeTrees : List (String × Tree)
  staticRoutes : List (String × List (String × Leaf))
  nextLid : Nat
deriving Repr

/-- `newRouter`: a tree and an empty fast map per method. -/
def newRouterSt : RouterSt :=
  { routeTrees := httpMethods.map (fun m => (m, newTreeRoot)),
    staticRoutes := httpMethods.map (fun m => (m, [])),
    nextLid := 0 }

/-- ASCII upper-casing, `strings.ToUpper` for method names. -/
def toUpperStr (s : String) : String :=
  String.mk (s.data.map Char.toUpper)

/-- `router.addRoute` for one concrete method: validate the method,
parse the route, add it to the method's tree, and register the leaf in
the fast map when it is purely static.  Returns the updated router and
the `(method, leaf)` pair held by the returned `*Route` wrapper. -/
def routerAddRoute (rt : RouterSt) (method path : String) (h : Nat) :
    Option (RouterSt × (String × Leaf)) :=
  let m := toUpperStr method
  if !httpMethods.contains m then Option.none
  else
    match parseRouteStr path with
    | Option.none => Option.none
    | some ast =>
      match assocGet rt.routeTrees m with
      | Option.none => Option.none
      | some tree =>
        match addRouteT tree ast h rt.nextLid with
        | (_, .error _) => Option.none
        | (t1, .ok leaf) =>
          let statics :=
            if leaf.static then
              rt.staticRoutes.map (fun p =>
                if p.1 = m then (p.1, assocSet p.2 leaf.routeStr leaf) else p)
            else rt.staticRoutes
          some ({ routeTrees := assocSet rt.routeTrees m t1,
                  staticRoutes := statics,
                  nextLid := rt.nextLid + 2 }, (m, leaf))

/-- `leaf.SetHeaderMatcher` through the shared pointer: update the leaf
with the given identity wherever it sits in the tree. -/
def treeSetMatcher (lid : Nat) (m : List (String × String)) : Tree → Tree
  | .mk k seg sts ls =>
    .mk k seg (sts.attach.map (fun st => treeSetMatcher lid m st.1))
      (ls.map (fun l =>
        if l.lid = lid then { l with headerMatcher := some m } else l))
termination_by t => sizeOf t
decreasing_by
  simp_wf
  have h := List.sizeOf_lt_of_mem st.2
  omega

/-- `Route.Headers` for the single leaf of a single-method route: set
the matcher on the shared leaf and, when the leaf is purely static,
delete its entry from the fast map (header matches are dynamic). -/
def routerHeaders (rt : RouterSt) (method : String) (leaf : Leaf)
    (matcher : List (String × String)) : RouterSt :=
  let trees := rt.routeTrees.map (fun p =>
    if p.1 = method then (p.1, treeSetMatcher leaf.lid matcher p.2) else p)
  let statics :=
    if leaf.static then
      rt.staticRoutes.map (fun p =>
        if p.1 = method then (p.1, assocDel p.2 leaf.routeStr) else p)
    else rt.staticRoutes
  { rt with routeTrees := trees, staticRoutes := statics }

/-- The dispatch decision of `router.ServeHTTP`. -/
inductive Dispatch where
  | fastPath (l : Leaf) (params : Params)
  | treePath (l : Leaf) (params : Params)
  | notFound
deriving Repr

/-- `router.ServeHTTP`: the fast map first, then the method's tree, then
the not-found chain. -/
def serveHTTP (eng : RegexEngine) (rt : RouterSt) (method urlPath : String)
    (header : List (String × String)) : Dispatch :=
  match (assocGet rt.staticRoutes method).bind (fun mm => assocGet mm urlPath) with
  | some leaf => .fastPath leaf [("route", leaf.routeStr)]
  | Option.none =>
    match assocGet rt.routeTrees method with
    | Option.none => .notFound
    | some tree =>
      match treeMatchT eng tree urlPath header with
      | some (leaf, params) =>
        .treePath leaf (paramsSet params "route" leaf.routeStr)
      | Option.none => .notFound

/-- One registration step: add a route for one method and optionally
attach a header matcher to it right away (`f.Get(path, h).Headers(...)`). -/
inductive RouterOp where
  | addRoute (method path : String) (handlerId : Nat)
      (headers : Option (List (String × String)))

/-- Apply one registration step; `none` models a setup-time panic. -/
def applyOp (rt : RouterSt) : RouterOp → Option RouterSt
  | .addRoute m p h hdrs =>
    (routerAddRoute rt m p h).map (fun out =>
      match hdrs with
      | some hm => routerHeaders out.1 out.2.1 out.2.2 hm
      | Option.none => out.1)

/-- Apply a whole registration sequence to a fresh router. -/
def applyOps (ops : List RouterOp) : Option RouterSt :=
  ops.foldlM applyOp newRouterSt

/-! ## Invariant predicates and lookup helpers used by the theorems -/

/-- Non-strict ascending ordering of a rank list. -/
def ranksSorted : List Nat → Bool
  | [] => true
  | [_] => true
  | a :: b :: rest => (a ≤ b) && ranksSorted (b :: rest)

/-- No duplicates in a string list. -/
def nodupStrs : List String → Bool
  | [] => true
  | x :: rest => (!rest.contains x) && nodupStrs rest

/-- The children-list invariants of one node: both lists sorted by match
style and containing at most one match-all entry. -/
def nodeOrdered (t : Tree) : Bool :=
  ranksSorted (t.subtrees.map (fun st => st.style.rank)) &&
  ranksSorted (t.leaves.map (fun l => l.style.rank)) &&
  ((t.subtrees.filter (fun st => st.style = .all)).length ≤ 1) &&
  ((t.leaves.filter (fun l => l.style = .all)).length ≤ 1)

mutual

/-- `nodeOrdered`, recursively at every node. -/
def TreeOrdered : Tree → Bool
  | .mk k seg sts ls =>
    nodeOrdered (.mk k seg sts ls) && TreeOrderedList sts

/-- `TreeOrdered` over a subtree list. -/
def TreeOrderedList : List Tree → Bool
  | [] => true
  | st :: rest => TreeOrdered st && TreeOrderedList rest

end

/-- Distinct segment strings in both children lists of one node (the
duplicate checks of `addLeaf` and the reuse criterion of `addSubtree`
keep them unique). -/
def nodeDistinct (t : Tree) : Bool :=
  nodupStrs (t.subtrees.map treeSegStr) &&
  nodupStrs (t.leaves.map (fun l => segmentString l.segment))

/-- A static subtree always derives from a non-optional single-literal
segment, and a static leaf's `literals` field is always the trimmed
segment string (shape facts established at node creation). -/
def nodeShape (t : Tree) : Bool :=
  (t.subtrees.all (fun st =>
    st.style ≠ .static ||
      (match st.segment with
       | some s => !s.optional && isMatchStyleStatic s
       | Option.none => false))) &&
  (t.leaves.all (fun l =>
    match l.kind with
    | .lstatic lits => lits = trimLeftSet (segmentString l.segment) ['/', '?']
    | _ => true))

mutual

/-- The always-preserved structural invariant of built trees. -/
def TreeWF : Tree → Bool
  | .mk k seg sts ls =>
    nodeOrdered (.mk k seg sts ls) &&
    nodeDistinct (.mk k seg sts ls) &&
    nodeShape (.mk k seg sts ls) && TreeWFList sts

/-- `TreeWF` over a subtree list. -/
def TreeWFList : List Tree → Bool
  | [] => true
  | st :: rest => TreeWF st && TreeWFList rest

end

mutual

/-- No leaf anywhere derives from an optional segment (holds when no
registered route has an optional terminal segment). -/
def TreeNoOpt : Tree → Bool
  | .mk _ _ sts ls =>
    ls.all (fun l => !l.segment.optional) && TreeNoOptList sts

/-- `TreeNoOpt` over a subtree list. -/
def TreeNoOptList : List Tree → Bool
  | [] => true
  | st :: rest => TreeNoOpt st && TreeNoOptList rest

end

mutual

/-- All leaves of a tree (the node's own, then the subtrees'). -/
def collectLeaves : Tree → List Leaf
  | .mk _ _ sts ls => ls ++ collectLeavesList sts

/-- `collectLeaves` over a subtree list. -/
def collectLeavesList : List Tree → List Leaf
  | [] => []
  | st :: rest => collectLeaves st ++ collectLeavesList rest

end

/-- Descend along existing subtrees by segment string (the reuse
criterion of `addSubtree`). -/
def subtreeAt : Tree → List Segment → Option Tree
  | t, [] => some t
  | t, s :: rest =>
    match t.subtrees.find? (fun st => treeSegStr st = segmentString s) with
    | some st => subtreeAt st rest
    | Option.none => Option.none

/-- Descend along static subtrees by literal, then find the static leaf
with the given literal. -/
def staticLeafAt : Tree → List String → String → Option Leaf
  | t, [], leafLit =>
    t.leaves.find? (fun l =>
      match l.kind with
      | .lstatic lits => lits = leafLit
      | _ => false)
  | t, lit :: rest, leafLit =>
    match t.subtrees.find? (fun st =>
        st.style = .static && (treeSegStr st).drop 1 = lit) with
    | some st => staticLeafAt st rest leafLit
    | Option.none => Option.none

/-- `/lit1/lit2/.../litn` from literals. -/
def joinLits (parts : List String) : String :=
  String.join (parts.map (fun l => "/" ++ l))

/-- A usable path literal: non-empty and slash-free. -/
def litOk (l : String) : Bool :=
  !l.isEmpty && l.data.all (fun c => c ≠ '/')

/-- A fast-map entry is backed by the tree: the key is the path of a
chain of static subtrees ending in a static leaf equal to the stored
leaf, which carries no header matcher. -/
def FastEntryOk (t : Tree) (p : String) (leaf : Leaf) : Prop :=
  ∃ lits leafLit, p = joinLits (lits ++ [leafLit]) ∧
    (∀ l ∈ lits, litOk l) ∧ leafLit.data.all (fun c => c ≠ '/') ∧
    staticLeafAt t lits leafLit = some leaf ∧
    leaf.kind = .lstatic leafLit ∧ leaf.headerMatcher = Option.none

/-- The character suffix of a fast-map key after its leading slash: the
literals joined by slashes, ending in the leaf literal. -/
def restData : List String → String → List Char
  | [], leafLit => leafLit.data
  | lit :: rest, leafLit => lit.data ++ '/' :: restData rest leafLit

/-- The tree holding exactly the route `/files/{path: **, capture: 2}`
(handler id 7), built through the parser and `AddRoute`. -/
def filesCaptureTree : Tree :=
  (addRouteT newTreeRoot
    ((parseRouteStr "/files/{path: **, capture: 2}").getD ⟨[]⟩) 7 0).1

/-- The tree holding exactly the route `/files/{path: **, capture: 2}/dl`
(handler id 9): its match-all tree node exercises the segment-absorbing
loop `matchAllTree.matchAll`. -/
def filesCaptureTree2 : Tree :=
  (addRouteT newTreeRoot
    ((parseRouteStr "/files/{path: **, capture: 2}/dl").getD ⟨[]⟩) 9 0).1

/-- Descend from a node along a list of segment strings, taking at each
step the first subtree whose segment renders to the given string. -/
def descendSegs : Tree → List String → Option Tree
  | t, [] => some t
  | t, s :: ss =>
    match t.subtrees.find? (fun st => treeSegStr st = s) with
    | some st => descendSegs st ss
    | Option.none => Option.none

/-- The parsed route `/a/b/?c` (terminal segment optional). -/
def abcRoute : Route := (parseRouteStr "/a/b/?c").getD ⟨[]⟩

/-- The tree holding exactly the route `/a/b/?c` (handler id 3). -/
def abcTree : Tree := (addRouteT newTreeRoot abcRoute 3 0).1

/-- The `i`-th segment of `/a/b/?c`. -/
def abcSeg (i : Nat) : Segment := abcRoute.segments.getD i ⟨false, []⟩

/-- The raw `addNextSegment` output registering `/a/b/?c` at the root. -/
def abcAddOut : Tree × Except AddErr Leaf × Bool :=
  addNextSegment abcRoute 3 [abcSeg 0, abcSeg 1, abcSeg 2] newTreeRoot false
    [MatchStyle.none] [] 0

/-- A throwaway leaf used as the default of `Option.getD`. -/
def dflLeaf : Leaf :=
  { lid := 0, route := ⟨[]⟩, segment := ⟨false, []⟩, handlerId := 0,
    kind := .lstatic "", headerMatcher := Option.none, chainStyles := [] }

/-- A hook interpretation that only touches response headers: it leaves
the method, status, size and transmitted body alone (what the
before-write hooks of the source do to the fields modeled here). -/
def HeaderOnlyHooks {H : Type} (applyHook : H → RWState H → RWState H) : Prop :=
  ∀ f st, (applyHook f st).size = st.size ∧
    (applyHook f st).underlyingBody = st.underlyingBody ∧
    (applyHook f st).status = st.status ∧
    (applyHook f st).method = st.method

/-- An engine whose `MatchString` is constantly true; it agrees with the
compiled empty regex `regexp.MustCompile("")`, which matches every
string (the empty pattern matches the empty prefix of anything). -/
def emptyPatternEngine : RegexEngine :=
  ⟨fun _ _ => true, fun _ _ => Option.none⟩

/-- The router holding exactly `GET /users/sessions` (handler id 5). -/
def usersRouter : RouterSt :=
  (applyOps [.addRoute "GET" "/users/sessions" 5 Option.none]).getD newRouterSt

/-- Its fast map for `GET`. -/
def usersFastMap : List (String × Leaf) :=
  (assocGet usersRouter.staticRoutes "GET").getD []

/-- Its route tree for `GET`. -/
def usersTree : Tree :=
  (assocGet usersRouter.routeTrees "GET").getD newTreeRoot

/-- Its fast-map leaf for `/users/sessions`. -/
def usersLeaf : Leaf :=
  (assocGet usersFastMap "/users/sessions").getD dflLeaf

/-! # Theorems -/

theorem callBefore_preserves {H : Type}
    (applyHook : H → RWState H → RWState H) (hh : HeaderOnlyHooks applyHook)
    (w : RWState H) :
    (RWState.callBefore applyHook w).size = w.size ∧
    (RWState.callBefore applyHook w).underlyingBody = w.underlyingBody ∧
    (RWState.callBefore applyHook w).status = w.status ∧
    (RWState.callBefore applyHook w).method = w.method := by
  unfold RWState.callBefore
  generalize w.beforeFuncs.reverse = fs
  induction fs generalizing w with
  | nil => exact ⟨rfl, rfl, rfl, rfl⟩
  | cons f rest ih =>
    have hf := hh f w
    have hr := ih (applyHook f w)
    simp only [List.foldl_cons] at *
    exact ⟨hr.1.trans hf.1, hr.2.1.trans hf.2.1, hr.2.2.1.trans hf.2.2.1,
      hr.2.2.2.trans hf.2.2.2⟩

/-- C10: On a wrapper created for a HEAD request, `Write` sets status
200 when nothing has been written yet, firing the stacked before-write
hooks in the usual way, but transmits no bytes to the underlying
writer, returns 0 as the written size, and leaves `Size()` at 0; for
any other method the same call transmits the body and returns and
accumulates its length. -/
theorem head_write_discards_body {H : Type}
    (applyHook : H → RWState H → RWState H) (hooks : List H) (b : List Nat)
    (hh : HeaderOnlyHooks applyHook) :
    (let w0 : RWState H :=
      { newResponseWriter H "HEAD" with beforeFuncs := hooks }
     let out := RWState.write applyHook w0 b
     out.2 = 0 ∧ out.1.status = 200 ∧ out.1.size = 0 ∧
       out.1.underlyingBody = [] ∧ out.1.underlyingStatus = some 200 ∧
       out.1 = { RWState.callBefore applyHook { w0 with onceUsed := true } with
                   underlyingStatus := some 200, status := 200 }) ∧
    (∀ method : String, method ≠ "HEAD" →
      (let w0 : RWState H :=
        { newResponseWriter H method with beforeFuncs := hooks }
       let out := RWState.write applyHook w0 b
       out.2 = b.length ∧ out.1.size = b.length ∧
         out.1.underlyingBody = b)) := by
  constructor
  · have hcb := callBefore_preserves applyHook hh
      { newResponseWriter H "HEAD" with onceUsed := true, beforeFuncs := hooks }
    simp only [RWState.write, RWState.writeHeader, RWState.written,
      newResponseWriter] at *
    refine ⟨?_, ?_, ?_, ?_, ?_, ?_⟩ <;> simp_all
  · intro method hm
    have hcb := callBefore_preserves applyHook hh
      { newResponseWriter H method with onceUsed := true, beforeFuncs := hooks }
    simp only [RWState.write, RWState.writeHeader, RWState.written,
      newResponseWriter] at *
    simp_all

theorem head_write_discards_body_witness :
    (let w0 : RWState Unit :=
      { newResponseWriter Unit "HEAD" with beforeFuncs := [()] }
     let out := RWState.write (fun _ st => st) w0 [1, 2, 3]
     out.2 = 0 ∧ out.1.status = 200 ∧ out.1.size = 0 ∧
       out.1.underlyingBody = []) ∧
    (let w1 : RWState Unit :=
      { newResponseWriter Unit "GET" with beforeFuncs := [()] }
     let out := RWState.write (fun _ st => st) w1 [1, 2, 3]
     out.2 = 3 ∧ out.1.size = 3) := by
  have h := head_write_discards_body (H := Unit) (fun _ st => st) [()] [1, 2, 3]
    (by intro f st; exact ⟨rfl, rfl, rfl, rfl⟩)
  refine ⟨⟨h.1.1, h.1.2.1, h.1.2.2.1, h.1.2.2.2.1⟩, ?_⟩
  have h2 := h.2 "GET" (by decide)
  exact ⟨h2.1, h2.2.1⟩

/-- C8 counterexample: a matcher pair with the empty regex does NOT
match a request that carries the header with an empty value, although
the claim says any request carrying the header matches regardless of
its value.  The engine is the constant-true one, so the regex test is
not what fails: `Match` requires a non-empty value before consulting
the regex. -/
theorem header_empty_regex_counterexample :
    ("X-Pin", "") ∈ [("X-Pin", "")] ∧
    headerMatcherMatch emptyPatternEngine [("X-Pin", "")] [("X-Pin", "")] = false ∧
    headerMatcherMatch emptyPatternEngine [("X-Pin", "")] [("X-Pin", "on")] = true := by
  exact ⟨by decide, by decide, by decide⟩

/-- C8 (amended): a leaf's header matcher passes exactly when every
listed header has a non-empty request value matched by its regex
(all-of); a pair whose regex is empty asserts presence with a non-empty
value — any non-empty value passes, because the compiled empty regex
matches every string, but a header present with an empty value fails. -/
theorem header_matcher_all_of (eng : RegexEngine)
    (m h : List (String × String)) :
    (headerMatcherMatch eng m h = true ↔
      ∀ p ∈ m, headerGet h p.1 ≠ "" ∧ eng.matchString p.2 (headerGet h p.1) = true) ∧
    ((∀ v, eng.matchString "" v = true) →
      ∀ name, headerMatcherMatch eng [(name, "")] h = (headerGet h name ≠ "" : Bool)) := by
  constructor
  · unfold headerMatcherMatch
    rw [List.all_eq_true]
    constructor
    · intro hall p hp
      have := hall p hp
      simp only [Bool.and_eq_true, decide_eq_true_eq] at this
      exact ⟨this.1, this.2⟩
    · intro hall p hp
      have := hall p hp
      simp only [Bool.and_eq_true, decide_eq_true_eq]
      exact ⟨this.1, this.2⟩
  · intro hEmpty name
    unfold headerMatcherMatch
    simp [hEmpty]

theorem header_matcher_all_of_witness :
    (headerMatcherMatch emptyPatternEngine [("A", "x")] [("A", "v")] = true ↔
      ∀ p ∈ [("A", "x")], headerGet [("A", "v")] p.1 ≠ "" ∧
        emptyPatternEngine.matchString p.2 (headerGet [("A", "v")] p.1) = true) ∧
    headerMatcherMatch emptyPatternEngine [("B", "")] [("A", "v")] =
      (headerGet [("A", "v")] "B" ≠ "" : Bool) := by
  have h := header_matcher_all_of emptyPatternEngine [("A", "x")] [("A", "v")]
  exact ⟨h.1, (h.2 (by intro v; rfl) "B")⟩

/-- C1: the resolution order of `injector.Value`: an exact binding wins;
otherwise, for an interface type, the first stored value whose concrete
type implements it; otherwise the parent's result; otherwise not found.
In particular, when a value of a concrete type implementing interface
`t` is stored and no direct binding for `t` exists, `Value t` returns a
stored value whose concrete type implements `t`. -/
theorem injector_value_resolution (impls : GoType → GoType → Bool)
    (vals : List (GoType × Nat)) (rest : List (List (GoType × Nat)))
    (t : GoType) :
    (∀ v, lookupExact vals t = some v →
      (Injector.mk (vals :: rest)).Value impls t = some v) ∧
    (lookupExact vals t = Option.none → t.isInterface = true →
      ∀ v, findImplementor impls vals t = some v →
        (Injector.mk (vals :: rest)).Value impls t = some v) ∧
    (lookupExact vals t = Option.none →
      (t.isInterface = false ∨ findImplementor impls vals t = Option.none) →
      (Injector.mk (vals :: rest)).Value impls t =
        (Injector.mk rest).Value impls t) ∧
    ((Injector.mk ([] : List (List (GoType × Nat)))).Value impls t =
      Option.none) ∧
    (t.isInterface = true → lookupExact vals t = Option.none →
      ∀ C v, (C, v) ∈ vals → impls C t = true →
        ∃ D w, (D, w) ∈ vals ∧ impls D t = true ∧
          (Injector.mk (vals :: rest)).Value impls t = some w) := by
  refine ⟨?_, ?_, ?_, ?_, ?_⟩
  · intro v hv
    simp [Injector.Value, valueChain, hv]
  · intro hnone hiface v hv
    simp [Injector.Value, valueChain, hnone, hiface, hv]
  · intro hnone hcase
    rcases hcase with hif | hfind
    · simp [Injector.Value, valueChain, hnone, hif]
    · simp [Injector.Value, valueChain, hnone, hfind]
  · simp [Injector.Value, valueChain]
  · intro hiface hnone C v hmem himpl
    have hsome : (vals.find? (fun p => impls p.1 t)).isSome := by
      rw [List.find?_isSome]
      exact ⟨(C, v), hmem, himpl⟩
    rcases Option.isSome_iff_exists.mp hsome with ⟨⟨D, w⟩, hfind⟩
    refine ⟨D, w, List.mem_of_find?_eq_some hfind, ?_, ?_⟩
    · have := List.find?_some hfind
      simpa using this
    · simp [Injector.Value, valueChain, hnone, hiface, findImplementor, hfind]

theorem injector_value_resolution_witness :
    (let tInt : GoType := ⟨0, false, "int"⟩
     let tIface : GoType := ⟨1, true, "fmt.Stringer"⟩
     let impls : GoType → GoType → Bool := fun c i => c.uid = 0 && i.uid = 1
     let inj : Injector := .mk [[(tInt, 42)]]
     lookupExact [(tInt, 42)] tIface = Option.none ∧
     ∃ D w, (D, w) ∈ [(tInt, 42)] ∧ impls D tIface = true ∧
       inj.Value impls tIface = some w) := by
  intro tInt tIface impls inj
  refine ⟨by decide, ?_⟩
  exact (injector_value_resolution impls [(tInt, 42)] [] tIface).2.2.2.2
    (by decide) (by decide) tInt 42 (by decide) (by decide)

/-- C9 counterexample: `injector.Invoke` on a non-function does panic,
but inside the reflect package (`t.NumIn()` on a non-func type), not
with the message "handler must be a callable function"; that message is
raised by `validateAndWrapHandler` at handler registration. -/
theorem invoke_nonfunc_panic_counterexample :
    Injector.Invoke (fun _ _ => false) (Injector.mk [])
        (.nonFn ⟨0, false, "int"⟩) =
      .panicked "reflect: NumIn of non-func type int" ∧
    "reflect: NumIn of non-func type int" ≠
      "handler must be a callable function" := by
  exact ⟨rfl, by decide⟩

/-- C9 (amended): when some formal parameter type of `fn` has no value
resolvable from the injector, `Invoke` returns the error
`value not found for type T` naming the first missing type, without
calling `fn` (the result does not depend on the body); when every
parameter resolves, the body is called on the resolved values.  A
non-function makes `Invoke` panic inside reflect, while
`validateAndWrapHandler` — the registration-time validation — panics
with "handler must be a callable function". -/
theorem invoke_failure_modes (impls : GoType → GoType → Bool)
    (inj : Injector) (params : List GoType) :
    (∀ t, resolveArgs impls inj params = .inl t →
      t ∈ params ∧ inj.Value impls t = Option.none ∧
      ∀ body, inj.Invoke impls (.fn params body) =
        .failed ("value not found for type " ++ t.name)) ∧
    ((∃ t ∈ params, inj.Value impls t = Option.none) →
      ∃ t, resolveArgs impls inj params = .inl t) ∧
    (∀ args, resolveArgs impls inj params = .inr args →
      ∀ body, inj.Invoke impls (.fn params body) = .ok (body args)) ∧
    (∀ T, inj.Invoke impls (.nonFn T) =
      .panicked ("reflect: NumIn of non-func type " ++ T.name)) ∧
    (∀ T, validateAndWrapHandler (.nonFn T) =
      .error "handler must be a callable function") ∧
    (∀ ps body, validateAndWrapHandler (.fn ps body) = .ok (.fn ps body)) := by
  refine ⟨?_, ?_, ?_, fun _ => rfl, fun _ => rfl, fun _ _ => rfl⟩
  · intro t hres
    have hmem : t ∈ params ∧ inj.Value impls t = Option.none := by
      induction params with
      | nil => simp [resolveArgs] at hres
      | cons p ps ih =>
        unfold resolveArgs at hres
        cases hv : inj.Value impls p with
        | none =>
          rw [hv] at hres
          cases hres
          exact ⟨List.mem_cons_self .., hv⟩
        | some v =>
          rw [hv] at hres
          cases hrest : resolveArgs impls inj ps with
          | inl m =>
            rw [hrest] at hres
            cases hres
            have := ih hrest
            exact ⟨List.mem_cons_of_mem _ this.1, this.2⟩
          | inr vs =>
            rw [hrest] at hres
            cases hres
    refine ⟨hmem.1, hmem.2, ?_⟩
    intro body
    simp [Injector.Invoke, hres]
  · intro hex
    cases hres : resolveArgs impls inj params with
    | inl t => exact ⟨t, rfl⟩
    | inr args =>
      exfalso
      rcases hex with ⟨t, hmem, hnone⟩
      induction params generalizing args with
      | nil => simp at hmem
      | cons p ps ih =>
        unfold resolveArgs at hres
        cases hv : inj.Value impls p with
        | none => rw [hv] at hres; cases hres
        | some v =>
          rw [hv] at hres
          cases hrest : resolveArgs impls inj ps with
          | inl m => rw [hrest] at hres; cases hres
          | inr vs =>
            rw [hrest] at hres
            rcases List.mem_cons.mp hmem with heq | hmem2
            · subst heq
              rw [hnone] at hv
              cases hv
            · exact ih vs hrest hmem2
  · intro args hres body
    simp [Injector.Invoke, hres]

theorem invoke_failure_modes_witness :
    (let tInt : GoType := ⟨0, false, "int"⟩
     let inj : Injector := .mk [[]]
     (tInt ∈ [tInt] ∧ inj.Value (fun _ _ => false) tInt = Option.none ∧
       ∀ body, inj.Invoke (fun _ _ => false) (.fn [tInt] body) =
         .failed ("value not found for type " ++ tInt.name)) ∧
     validateAndWrapHandler (HandlerV.nonFn tInt) =
       .error "handler must be a callable function") := by
  intro tInt inj
  have h := invoke_failure_modes (fun _ _ => false) inj [tInt]
  exact ⟨h.1 tInt rfl, h.2.2.2.2.1 tInt⟩

theorem runChain_past (fuel : Nat) (hs : List Prog) (act : Option Prog)
    (st : ChainState) (h : hs.length < st.index) :
    runChain fuel hs act st = st := by
  cases fuel with
  | zero => simp [runChain]
  | succ f =>
    unfold runChain
    rw [if_neg]
    omega

theorem chain_emit_sequence (tags : List String) (atag : String)
    (pre : List Prog) (fuel : Nat) (st : ChainState)
    (hidx : st.index = pre.length) (hw : st.written = false)
    (hc : st.cancelled = false) (hfuel : fuel ≥ tags.length + 2) :
    runChain fuel (pre ++ tags.map (fun s => [HAct.emit s]))
        (some [HAct.emit atag]) st =
      { index := pre.length + tags.length + 1,
        logs := st.logs ++ tags ++ [atag],
        written := false, cancelled := false,
        invoked := st.invoked ++ List.range' pre.length (tags.length + 1) } := by
  induction tags generalizing pre fuel st with
  | nil =>
    cases fuel with
    | zero => omega
    | succ f =>
      unfold runChain
      rw [if_pos (by simp [hidx])]
      simp only [hc, Bool.false_eq_true, if_false]
      rw [if_pos (by simp [hidx])]
      simp only [execWith]
      rw [runChain_past]
      · simp [hidx, hw, ChainState.mk.injEq, List.range']
      · simp [hidx]
  | cons t ts ih =>
    cases fuel with
    | zero => omega
    | succ f =>
      unfold runChain
      rw [if_pos (by simp [hidx]; try omega)]
      simp only [hc, Bool.false_eq_true, if_false]
      rw [if_neg (by simp [hidx]; try omega)]
      have hget : (pre ++ (t :: ts).map (fun s => [HAct.emit s]))[st.index]? =
          some [HAct.emit t] := by
        rw [hidx, List.map_cons, List.getElem?_append_right (le_refl _)]
        simp
      rw [hget]
      simp only [execWith]
      rw [if_neg (by simp [hw])]
      have hrearr : pre ++ (t :: ts).map (fun s => [HAct.emit s]) =
          (pre ++ [[HAct.emit t]]) ++ ts.map (fun s => [HAct.emit s]) := by
        simp
      rw [hrearr]
      rw [ih (pre ++ [[HAct.emit t]]) f
        { index := st.index + 1, logs := st.logs ++ [t],
          written := st.written, cancelled := false,
          invoked := st.invoked ++ [st.index] }
        (by simp [hidx]) hw rfl (by simp at hfuel; omega)]
      simp [hidx, ChainState.mk.injEq, List.range']
      omega

theorem runChain_written_stop (fuel : Nat) (hs : List Prog) (act : Option Prog)
    (st : ChainState) (p : Prog)
    (hc : st.cancelled = false) (hle : st.index ≤ hs.length)
    (hsel : (if st.index = hs.length then act else hs[st.index]?) = some p)
    (hwr : (execWith (runChain fuel hs act) p
      { st with invoked := st.invoked ++ [st.index] }).written = true) :
    runChain (fuel + 1) hs act st =
      { execWith (runChain fuel hs act) p { st with invoked := st.invoked ++ [st.index] }
          with
        index := (execWith (runChain fuel hs act) p
          { st with invoked := st.invoked ++ [st.index] }).index + 1 } := by
  unfold runChain
  rw [if_pos hle]
  rw [if_neg (by simp [hc])]
  rw [hsel]
  simp only []
  rw [if_pos]
  exact hwr

/-- C2: (1) the chain `[A; B]` with action `C`, where `A` calls `Next()`
between its two writes, produces the observations
`A-pre, B, C, A-post`, the loop having selected slots 0, 1 and then the
action slot 2 = number of middleware handlers; (2) in general, a chain
of logging middleware run from the initial state invokes slots
`0, …, n` in order — the action handler being selected exactly at the
slot equal to the number of middleware handlers — and logs the tags in
order followed by the action's tag; (3) after a handler returns, the
loop stops (only the index advances) whenever the response has been
written during that handler. -/
theorem chain_run_order :
    ((runHandlers [[.emit "A-pre", .next, .emit "A-post"], [.emit "B"]]
        (some [.emit "C"])).logs = ["A-pre", "B", "C", "A-post"] ∧
     (runHandlers [[.emit "A-pre", .next, .emit "A-post"], [.emit "B"]]
        (some [.emit "C"])).invoked = [0, 1, 2]) ∧
    (∀ (tags : List String) (atag : String) (fuel : Nat),
      fuel ≥ tags.length + 2 →
      runChain fuel (tags.map (fun s => [HAct.emit s]))
          (some [HAct.emit atag]) initChain =
        { index := tags.length + 1, logs := tags ++ [atag],
          written := false, cancelled := false,
          invoked := List.range' 0 (tags.length + 1) }) ∧
    (∀ (fuel : Nat) (hs : List Prog) (act : Option Prog) (st : ChainState)
        (p : Prog),
      st.cancelled = false → st.index ≤ hs.length →
      (if st.index = hs.length then act else hs[st.index]?) = some p →
      (execWith (runChain fuel hs act) p
        { st with invoked := st.invoked ++ [st.index] }).written = true →
      runChain (fuel + 1) hs act st =
        { execWith (runChain fuel hs act) p { st with invoked := st.invoked ++ [st.index] }
            with
          index := (execWith (runChain fuel hs act) p
            { st with invoked := st.invoked ++ [st.index] }).index + 1 }) := by
  refine ⟨⟨rfl, rfl⟩, ?_, ?_⟩
  · intro tags atag fuel hfuel
    have h := chain_emit_sequence tags atag [] fuel initChain rfl rfl rfl hfuel
    simpa using h
  · intro fuel hs act st p hc hle hsel hwr
    exact runChain_written_stop fuel hs act st p hc hle hsel hwr

theorem chain_run_order_witness :
    (runChain 4 (["x", "y"].map (fun s => [HAct.emit s]))
        (some [HAct.emit "z"]) initChain =
      { index := 3, logs := ["x", "y", "z"], written := false,
        cancelled := false, invoked := [0, 1, 2] }) ∧
    (runChain 3 [[HAct.emit "w", HAct.writeResp], [HAct.emit "skipped"]]
        (some [HAct.emit "act"]) initChain =
      { index := 1, logs := ["w"], written := true, cancelled := false,
        invoked := [0] }) := by
  constructor
  · have h := chain_run_order.2.1 ["x", "y"] "z" 4 (by decide)
    simpa [List.range'] using h
  · have h := chain_run_order.2.2 2 [[HAct.emit "w", HAct.writeResp],
      [HAct.emit "skipped"]] (some [HAct.emit "act"]) initChain
      [HAct.emit "w", HAct.writeResp] rfl (by decide) rfl rfl
    simpa using h


/-- The path prefix up to the first slash found by `indexOfSlash`
contains no slash. -/
theorem indexOfSlash_take (cs : List Char) :
    ∀ i, indexOfSlash cs = some i → (cs.take i).count '/' = 0 := by
  induction cs with
  | nil => intro i h; simp [indexOfSlash] at h
  | cons c rest ih =>
    intro i h
    by_cases hc : c = '/'
    · simp [indexOfSlash, hc] at h
      subst h
      simp
    · simp [indexOfSlash, hc] at h
      rcases h with ⟨j, hj, rfl⟩
      simp [List.count_cons, hc, ih j hj]

/-- The absorbed-prefix bound of the match-all segment loop: whatever
leaf a positive-capture loop run returns, the value it bound absorbed
at most `capture` path segments. -/
theorem matchAllLoop_bound (eng : RegexEngine) (fuel : Nat) :
    ∀ (st : Tree) (path : List Char) (segment : String) (next captured : Nat)
      (params : Params) (header : List (String × String)) (bind : String)
      (capture : Int) (leaf : Leaf) (ps : Params),
    st.kind = .tmatchAll bind capture →
    segment.data.count '/' + 1 = captured →
    0 < capture →
    matchAllTreeLoop eng fuel st path segment next captured params header =
      (some leaf, ps) →
    ∃ seg2 ps0, ps = paramsSet ps0 bind seg2 ∧
      Int.ofNat (seg2.data.count '/' + 1) ≤ capture := by
  induction fuel with
  | zero =>
    intro st path segment next captured params header bind capture leaf ps
      hk hc hpos hm
    simp [matchAllTreeLoop, matchFns] at hm
  | succ fuel ih =>
    intro st path segment next captured params header bind capture leaf ps
      hk hc hpos hm
    simp only [matchAllTreeLoop, matchFns, matchStep, hk] at hm
    by_cases hcond :
        (decide (capture ≤ 0) || decide (capture ≥ Int.ofNat captured)) = true
    · rw [if_pos hcond] at hm
      have hge : Int.ofNat captured ≤ capture := by
        rcases Bool.or_eq_true_iff.1 hcond with h0 | h1
        · exact absurd (of_decide_eq_true h0) (by omega)
        · exact of_decide_eq_true h1
      rcases hns : (matchFns eng fuel).nextSeg st path next params header with
        ⟨ol, ps1⟩
      rw [hns] at hm
      cases ol with
      | some l =>
        simp at hm
        refine ⟨segment, ps1, hm.2.symm, ?_⟩
        rw [hc]
        exact hge
      | none =>
        rcases hslash : indexOfSlash (path.drop next) with _ | i
        · rw [hslash] at hm
          simp at hm
        · rw [hslash] at hm
          have hc2 : (segment ++ "/" ++
              String.mk ((path.drop next).take i)).data.count '/' + 1 =
              captured + 1 := by
            have ht := indexOfSlash_take (path.drop next) i hslash
            simp [List.count_append, ht]
            omega
          exact ih st path _ (next + i + 1) (captured + 1) ps1 header bind
            capture leaf ps hk hc2 hpos hm
    · rw [if_neg hcond] at hm
      simp at hm

/-- **C6.** For the route `/files/{path: **, capture: 2}`, matching
`/files/a/b` succeeds binding `path = "a/b"` and matching `/files/a/b/c`
returns no leaf; in general, a match-all leaf with positive capture `N`
absorbs at most `N` remaining segments (counted from the slash before
the current one), a match-all leaf with non-positive capture absorbs any
remainder (unlimited), and whatever leaf the match-all tree loop returns
under a positive capture, the value it bound to the match-all parameter
holds at most `capture` segments. -/
theorem match_all_capture_limit :
    (∀ (eng : RegexEngine) (header : List (String × String)),
      (treeMatchT eng filesCaptureTree "/files/a/b" header).map
        (fun lp => (lp.1.handlerId, lp.2)) = some (7, [("path", "a/b")])) ∧
    (∀ (eng : RegexEngine) (header : List (String × String)),
      treeMatchT eng filesCaptureTree "/files/a/b/c" header = Option.none) ∧
    (∀ (eng : RegexEngine) (l : Leaf) (path : List Char) (segment : String)
      (next : Nat) (params ps : Params) (header : List (String × String))
      (bind : String) (capture : Int),
      l.kind = .lmatchAll bind capture → 0 < capture →
      leafMatchAllRemainder eng l path segment next params header = some ps →
      Int.ofNat ((path.drop (next - 1)).count '/' + 1) ≤ capture) ∧
    (∀ (eng : RegexEngine) (l : Leaf) (path : List Char) (segment : String)
      (next : Nat) (params : Params) (header : List (String × String))
      (bind : String) (capture : Int),
      l.kind = .lmatchAll bind capture → capture ≤ 0 →
      l.headerMatcher = Option.none →
      leafMatchAllRemainder eng l path segment next params header =
        some (paramsSet params bind
          (segment ++ "/" ++ String.mk (path.drop next)))) ∧
    (∀ (eng : RegexEngine) (fuel : Nat) (st : Tree) (path : List Char)
      (segment : String) (next captured : Nat) (params : Params)
      (header : List (String × String)) (bind : String) (capture : Int),
      st.kind = .tmatchAll bind capture →
      segment.data.count '/' + 1 = captured →
      0 < capture →
      ((matchAllTreeLoop eng fuel st path segment next captured params
        header).1).isSome = true →
      ∃ leaf seg2 ps0,
        matchAllTreeLoop eng fuel st path segment next captured params header =
          (some leaf, paramsSet ps0 bind seg2) ∧
        Int.ofNat (seg2.data.count '/' + 1) ≤ capture) := by
  refine ⟨fun _ _ => rfl, fun _ _ => rfl, ?_, ?_, ?_⟩
  · intro eng l path segment next params ps header bind capture hk hpos hm
    simp only [leafMatchAllRemainder, hk] at hm
    by_cases hgt : (decide (capture > 0) &&
        decide (capture < Int.ofNat ((path.drop (next - 1)).count '/' + 1))) = true
    · rw [if_pos hgt] at hm
      simp at hm
    · have := Bool.and_eq_true_iff.not.1 hgt
      simp only [decide_eq_true_eq, not_and] at this
      have h2 := this (by omega)
      omega
  · intro eng l path segment next params header bind capture hk hle hmn
    simp only [leafMatchAllRemainder, hk]
    rw [if_neg (by simp; omega)]
    simp [Leaf.matchHeader, hmn]
  · intro eng fuel st path segment next captured params header bind capture
      hk hc hpos hs
    rcases hm : matchAllTreeLoop eng fuel st path segment next captured
      params header with ⟨ol, ps⟩
    rw [hm] at hs
    cases ol with
    | none => simp at hs
    | some leaf =>
      rcases matchAllLoop_bound eng fuel st path segment next captured params
        header bind capture leaf ps hk hc hpos hm with ⟨seg2, ps0, hps, hb⟩
      exact ⟨leaf, seg2, ps0, by rw [hps], hb⟩

/-- The capture-2 loop of `/files/{path: **, capture: 2}/dl` on the
request path `files/a/b/dl`: the returned binding absorbs at most two
segments. -/
theorem match_all_capture_limit_witness :
    ∃ leaf seg2 ps0,
      matchAllTreeLoop emptyPatternEngine 12
        ((filesCaptureTree2.subtrees.getD 0 newTreeRoot).subtrees.getD 0
          newTreeRoot)
        "files/a/b/dl".data "a" 8 1 [] [] = (some leaf, paramsSet ps0 "path" seg2) ∧
      Int.ofNat (seg2.data.count '/' + 1) ≤ 2 :=
  match_all_capture_limit.2.2.2.2 emptyPatternEngine 12
    ((filesCaptureTree2.subtrees.getD 0 newTreeRoot).subtrees.getD 0
      newTreeRoot)
    "files/a/b/dl".data "a" 8 1 [] [] "path" 2 rfl rfl (by decide) rfl

/-- A leaf created by `newLeaf` carries the requested handler and
segment. -/
theorem newLeaf_ok (chain : List MatchStyle) (parentBinds : List String)
    (lid : Nat) (r : Route) (s : Segment) (h : Nat) (l : Leaf) :
    newLeaf chain parentBinds lid r s h = .ok l →
    l.handlerId = h ∧ l.segment = s := by
  intro hl
  unfold newLeaf at hl
  repeat' split at hl
  all_goals first
    | (cases hl; exact ⟨rfl, rfl⟩)
    | simp at hl

/-- A tree created by `newTree` carries the requested segment. -/
theorem newTree_ok (chain : List MatchStyle) (parentBinds : List String)
    (s : Segment) (st : Tree) :
    newTree chain parentBinds s = .ok st → st.segment = some s := by
  intro hl
  unfold newTree at hl
  repeat' split at hl
  all_goals first
    | (cases hl; rfl)
    | simp at hl

/-- Ordered insertion keeps the inserted leaf in the list. -/
theorem mem_insertLeafOrdered (ls : List Leaf) (l : Leaf) :
    l ∈ insertLeafOrdered ls l := by
  simp [insertLeafOrdered]

/-- `addLeaf` with a non-optional outcome: the tree gains exactly the
created leaf (same handler and segment), everything else unchanged. -/
theorem addLeafCore_ok_false (t : Tree) (hp : Bool) (chain : List MatchStyle)
    (pb : List String) (r : Route) (s : Segment) (h : Nat) (lid : Nat)
    (t1 : Tree) (l : Leaf) :
    addLeafCore t hp chain pb r s h lid = (t1, .ok l, false) →
    l.handlerId = h ∧ l.segment = s ∧ l.lid = lid ∧
    t1.segment = t.segment ∧ t1.kind = t.kind ∧
    t1.subtrees = t.subtrees ∧ l ∈ t1.leaves := by
  intro hl
  unfold addLeafCore at hl
  split at hl
  · simp at hl
  · split at hl
    · simp at hl
    · rename_i leaf hnew
      split at hl
      · simp at hl
      · split at hl
        · split at hl <;> simp at hl
        · cases hl
          rcases newLeaf_ok _ _ _ _ _ _ _ hnew with ⟨hh, hs⟩
          have hlid : l.lid = lid := by
            unfold newLeaf at hnew
            repeat' split at hnew
            all_goals first
              | (cases hnew; rfl)
              | simp at hnew
          exact ⟨hh, hs, hlid, rfl, rfl, rfl, mem_insertLeafOrdered _ _⟩

/-- `addLeaf` signalling a pending optional leaf leaves the tree
untouched; the created leaf carries the requested handler and segment,
which is optional. -/
theorem addLeafCore_ok_true (t : Tree) (hp : Bool) (chain : List MatchStyle)
    (pb : List String) (r : Route) (s : Segment) (h : Nat) (lid : Nat)
    (t1 : Tree) (l : Leaf) :
    addLeafCore t hp chain pb r s h lid = (t1, .ok l, true) →
    t1 = t ∧ l.handlerId = h ∧ l.segment = s ∧ l.lid = lid ∧
    s.optional = true := by
  intro hl
  unfold addLeafCore at hl
  split at hl
  · simp at hl
  · split at hl
    · simp at hl
    · rename_i leaf hnew
      split at hl
      · simp at hl
      · split at hl
        · split at hl
          · cases hl
            rcases newLeaf_ok _ _ _ _ _ _ _ hnew with ⟨hh, hs⟩
            have hlid : l.lid = lid := by
              unfold newLeaf at hnew
              repeat' split at hnew
              all_goals first
                | (cases hnew; rfl)
                | simp at hnew
            exact ⟨rfl, hh, hs, hlid, by assumption⟩
          · simp at hl
        · simp at hl

/-- `addLeaf` never modifies the segment, kind or subtrees of the node
it works on. -/
theorem addLeafCore_root (t : Tree) (hp : Bool) (chain : List MatchStyle)
    (pb : List String) (r : Route) (s : Segment) (h : Nat) (lid : Nat) :
    ((addLeafCore t hp chain pb r s h lid).1).segment = t.segment ∧
    ((addLeafCore t hp chain pb r s h lid).1).kind = t.kind ∧
    ((addLeafCore t hp chain pb r s h lid).1).subtrees = t.subtrees := by
  unfold addLeafCore
  repeat' split
  all_goals exact ⟨rfl, rfl, rfl⟩

/-- The element at the index found by `findIdx` satisfies the
predicate. -/
theorem findIdx_getD {α : Type} (p : α → Bool) (d : α) :
    ∀ (l : List α) (i : Nat), l.findIdx p = i → i < l.length →
    p (l.getD i d) = true := by
  intro l
  induction l with
  | nil => intro i _ hi; simp at hi
  | cons a l ih =>
    intro i hf hi
    by_cases ha : p a
    · simp [List.findIdx_cons, ha] at hf
      subst hf
      simpa using ha
    · simp [List.findIdx_cons, ha] at hf
      cases i with
      | zero => omega
      | succ j =>
        have : l.findIdx p = j := by omega
        simpa using ih j this (by simpa using hi)

/-- Replacing the element at the first index satisfying `p` with
another element satisfying `p` makes `find?` return the new element. -/
theorem find?_set_findIdx {α : Type} (p : α → Bool) :
    ∀ (l : List α) (i : Nat) (x : α), l.findIdx p = i → i < l.length →
    p x = true → (l.set i x).find? p = some x := by
  intro l
  induction l with
  | nil => intro i x _ hi; simp at hi
  | cons a l ih =>
    intro i x hf hi hx
    by_cases ha : p a
    · simp [List.findIdx_cons, ha] at hf
      subst hf
      simp [List.find?_cons, hx]
    · simp [List.findIdx_cons, ha] at hf
      cases i with
      | zero => omega
      | succ j =>
        have hj : l.findIdx p = j := by omega
        simp only [List.set]
        rw [List.find?_cons_of_neg _ (by simpa using ha)]
        exact ih j x hj (by simpa using hi) hx

/-- When `findIdx` runs off the end, no element satisfies the
predicate. -/
theorem findIdx_ge_all_false {α : Type} (p : α → Bool) :
    ∀ (l : List α), l.length ≤ l.findIdx p → ∀ x ∈ l, p x = false := by
  intro l
  induction l with
  | nil => intro _ x hx; simp at hx
  | cons a l ih =>
    intro hle x hx
    by_cases ha : p a
    · simp [List.findIdx_cons, ha] at hle
    · simp [List.findIdx_cons, ha] at hle
      rcases List.mem_cons.1 hx with rfl | hx2
      · simpa using ha
      · exact ih (by omega) x hx2

/-- `find?` over a list whose left part fails the predicate returns the
distinguished middle element when it satisfies it. -/
theorem find?_mid {α : Type} (p : α → Bool) (x : α) :
    ∀ (l1 l2 : List α), (∀ y ∈ l1, p y = false) → p x = true →
    (l1 ++ x :: l2).find? p = some x := by
  intro l1
  induction l1 with
  | nil => intro l2 _ hx; simp [List.find?_cons, hx]
  | cons a l1 ih =>
    intro l2 hall hx
    have ha : p a = false := hall a (by simp)
    simp only [List.cons_append]
    rw [List.find?_cons_of_neg _ (by simp [ha])]
    exact ih l2 (fun y hy => hall y (by simp [hy])) hx

/-- `find?` after ordered insertion into a list where nothing matched
returns the inserted tree. -/
theorem find?_insertTreeOrdered (p : Tree → Bool) (l : List Tree) (x : Tree)
    (hall : ∀ y ∈ l, p y = false) (hx : p x = true) :
    (insertTreeOrdered l x).find? p = some x := by
  unfold insertTreeOrdered
  have : l.take (l.findIdx fun t => x.style.rank < t.style.rank) ++ [x] ++
      l.drop (l.findIdx fun t => x.style.rank < t.style.rank) =
      l.take (l.findIdx fun t => x.style.rank < t.style.rank) ++ x ::
      l.drop (l.findIdx fun t => x.style.rank < t.style.rank) := by simp
  rw [this]
  exact find?_mid p x _ _
    (fun y hy => hall y (List.take_subset _ _ hy)) hx

/-- Applied form of `addLeafCore_root`. -/
theorem addLeafCore_fields (t : Tree) (hp : Bool) (chain : List MatchStyle)
    (pb : List String) (r : Route) (s : Segment) (h : Nat) (lid : Nat)
    (t1 : Tree) (res : Except AddErr Leaf) (pend : Bool) :
    addLeafCore t hp chain pb r s h lid = (t1, res, pend) →
    t1.segment = t.segment ∧ t1.kind = t.kind ∧ t1.subtrees = t.subtrees := by
  intro he
  have h4 := addLeafCore_root t hp chain pb r s h lid
  rw [he] at h4
  exact h4

/-- `addLeaf` on an optional segment never reports a non-pending
success. -/
theorem addLeafCore_optional_pend (t : Tree) (hp : Bool)
    (chain : List MatchStyle) (pb : List String) (r : Route) (s : Segment)
    (h : Nat) (lid : Nat) (t1 : Tree) (l : Leaf) :
    addLeafCore t hp chain pb r s h lid = (t1, .ok l, false) →
    s.optional = false := by
  intro hl
  unfold addLeafCore at hl
  split at hl
  · simp at hl
  · split at hl
    · simp at hl
    · split at hl
      · simp at hl
      · split at hl
        · split at hl <;> simp at hl
        · rename_i hopt
          simpa using hopt

/-- Trees with the same segment render to the same segment string. -/
theorem treeSegStr_congr (t1 t2 : Tree) (h : t1.segment = t2.segment) :
    treeSegStr t1 = treeSegStr t2 := by
  unfold treeSegStr
  rw [h]

/-- A tree whose segment is known renders to that segment's string. -/
theorem treeSegStr_some (t : Tree) (s : Segment) (h : t.segment = some s) :
    treeSegStr t = segmentString s := by
  unfold treeSegStr
  rw [h]

/-- Inserting a leaf does not change a node's segment. -/
theorem insertLeafInto_segment (t : Tree) (l : Leaf) :
    (insertLeafInto t l).segment = t.segment := rfl

/-- Replacing a subtree rewrites the subtree list pointwise. -/
theorem replaceSub_subtrees (t : Tree) (i : Nat) (st : Tree) :
    (replaceSub t i st).subtrees = t.subtrees.set i st := rfl

/-- The subtree list of a literal node. -/
theorem subtrees_mk (k : TreeKind) (sg : Option Segment) (sts : List Tree)
    (ls : List Leaf) : (Tree.mk k sg sts ls).subtrees = sts := rfl

/-- Adding a route whose terminal segment is optional installs the full
leaf on the node for the next-to-last segment, and the extra
(tail-less) leaf on that node's parent — the grandparent of the full
leaf — with the next-to-last segment's string and the same handler. -/
theorem addNextSegment_optional_grandparent :
    ∀ (pre : List Segment) (p q : Segment) (r : Route) (h lid : Nat) (t : Tree)
      (hasParent : Bool) (chain : List MatchStyle) (parentBinds : List String)
      (t1 : Tree) (leaf : Leaf) (pend : Bool),
    q.optional = true →
    addNextSegment r h (pre ++ [p, q]) t hasParent chain parentBinds lid =
      (t1, .ok leaf, pend) →
    pend = false ∧ t1.segment = t.segment ∧
    ∃ g, descendSegs t1 (pre.map segmentString) = some g ∧
      (∃ l2, l2 ∈ g.leaves ∧ segmentString l2.segment = segmentString p ∧
        l2.handlerId = h) ∧
      (∃ stp, g.subtrees.find? (fun st => treeSegStr st = segmentString p) =
          some stp ∧
        leaf ∈ stp.leaves ∧ segmentString leaf.segment = segmentString q ∧
        leaf.handlerId = h) := by
  intro pre
  induction pre with
  | nil =>
    intro p q r h lid t hasParent chain parentBinds t1 leaf pend hq hadd
    simp only [List.nil_append] at hadd
    simp only [addNextSegment] at hadd
    split at hadd
    · simp at hadd
    · simp only [addSubtree, addNextSegment] at hadd
      split at hadd
      · -- existing subtree
        split at hadd
        · -- inner addLeafCore reported the pending optional leaf
          rename_i st1 leaf1 heq1
          split at hadd
          · rename_i ps heq2
            split at hadd
            · rename_i t0a a heq3
              simp only [Prod.mk.injEq] at hadd
              rcases hadd with ⟨ht1, hleaf, hpend⟩
              obtain ⟨hst1, hlh, hls, _, _⟩ :=
                addLeafCore_ok_true _ _ _ _ _ _ _ _ _ _ heq1
              obtain ⟨hah, has, _, ht0seg, _, ht0sub, hamem⟩ :=
                addLeafCore_ok_false _ _ _ _ _ _ _ _ _ _ heq3
              have hst : treeSegStr (t.subtrees.getD
                  (List.findIdx (fun st =>
                    decide (treeSegStr st = segmentString p)) t.subtrees)
                  newTreeRoot) = segmentString p :=
                of_decide_eq_true (findIdx_getD _ newTreeRoot t.subtrees _ rfl
                  (by assumption))
              have hps : segmentString ps = segmentString p := by
                rw [← treeSegStr_some _ _ heq2, hst]
              refine ⟨hpend.symm, ?_, t1, by simp [descendSegs], ⟨a, ?_, ?_, hah⟩, ?_⟩
              · rw [← ht1]
                exact ht0seg
              · rw [← ht1]
                exact hamem
              · rw [has, hps]
              · refine ⟨insertLeafInto st1 leaf1, ?_, ?_, ?_, ?_⟩
                · rw [← ht1]
                  show (t0a.subtrees.set _ _).find? _ = _
                  rw [ht0sub]
                  refine find?_set_findIdx _ t.subtrees _ _ rfl (by assumption) ?_
                  refine decide_eq_true ?_
                  show treeSegStr (insertLeafInto st1 leaf1) = _
                  rw [treeSegStr_congr _ _ (insertLeafInto_segment st1 leaf1),
                    hst1, hst]
                · rw [← Except.ok.inj hleaf]
                  exact mem_insertLeafOrdered _ _
                · rw [← Except.ok.inj hleaf, hls]
                · rw [← Except.ok.inj hleaf]
                  exact hlh
            · simp at hadd
            · simp at hadd
          · simp at hadd
        · -- inner addLeafCore did not report a pending leaf: impossible
          rename_i st1 res snd hnotp heq1
          simp only [Prod.mk.injEq] at hadd
          rcases hadd with ⟨ht1, hres, hpend⟩
          have hsnd : snd = false := by
            cases snd with
            | false => rfl
            | true => exact (hnotp leaf hres rfl).elim
          rw [hres, hsnd] at heq1
          have := addLeafCore_optional_pend _ _ _ _ _ _ _ _ _ _ heq1
          rw [hq] at this
          cases this
      · -- new subtree
        split at hadd
        · simp at hadd
        · rename_i st heq0
          split at hadd
          · simp at hadd
          · split at hadd
            · rename_i st1 leaf1 heq1
              split at hadd
              · rename_i t0a a heq3
                simp only [Prod.mk.injEq] at hadd
                rcases hadd with ⟨ht1, hleaf, hpend⟩
                obtain ⟨hst1, hlh, hls, _, _⟩ :=
                  addLeafCore_ok_true _ _ _ _ _ _ _ _ _ _ heq1
                obtain ⟨hah, has, _, ht0seg, _, ht0sub, hamem⟩ :=
                  addLeafCore_ok_false _ _ _ _ _ _ _ _ _ _ heq3
                have hstp : treeSegStr st = segmentString p :=
                  treeSegStr_some _ _ (newTree_ok _ _ _ _ heq0)
                refine ⟨hpend.symm, ?_, t1, by simp [descendSegs],
                  ⟨a, ?_, ?_, hah⟩, ?_⟩
                · rw [← ht1]
                  exact ht0seg
                · rw [← ht1]
                  exact hamem
                · rw [has]
                · refine ⟨insertLeafInto st1 leaf1, ?_, ?_, ?_, ?_⟩
                  · rw [← ht1]
                    show (insertTreeOrdered t0a.subtrees _).find? _ = _
                    rw [ht0sub]
                    refine find?_insertTreeOrdered _ t.subtrees _
                      (findIdx_ge_all_false _ t.subtrees (by omega)) ?_
                    refine decide_eq_true ?_
                    show treeSegStr (insertLeafInto st1 leaf1) = _
                    rw [treeSegStr_congr _ _ (insertLeafInto_segment st1 leaf1),
                      hst1, hstp]
                  · rw [← Except.ok.inj hleaf]
                    exact mem_insertLeafOrdered _ _
                  · rw [← Except.ok.inj hleaf, hls]
                  · rw [← Except.ok.inj hleaf]
                    exact hlh
              · simp at hadd
              · simp at hadd
            · rename_i st1 res snd hnotp heq1
              simp only [Prod.mk.injEq] at hadd
              rcases hadd with ⟨ht1, hres, hpend⟩
              have hsnd : snd = false := by
                cases snd with
                | false => rfl
                | true => exact (hnotp leaf hres rfl).elim
              rw [hres, hsnd] at heq1
              have := addLeafCore_optional_pend _ _ _ _ _ _ _ _ _ _ heq1
              rw [hq] at this
              cases this
  | cons s pre' ih =>
    intro p q r h lid t hasParent chain parentBinds t1 leaf pend hq hadd
    obtain ⟨s2, rest, hcons⟩ : ∃ s2 rest, pre' ++ [p, q] = s2 :: rest := by
      cases pre' <;> exact ⟨_, _, rfl⟩
    simp only [List.cons_append] at hadd
    rw [hcons] at hadd
    simp only [addNextSegment] at hadd
    split at hadd
    · simp at hadd
    · simp only [addSubtree] at hadd
      split at hadd
      · -- existing subtree
        split at hadd
        · rename_i st1 leaf1 heq1
          rw [← hcons] at heq1
          have hIH := ih p q r h lid _ true _ _ _ _ _ hq heq1
          exact absurd hIH.1 (by simp)
        · rename_i st1 res snd hnotp heq1
          simp only [Prod.mk.injEq] at hadd
          rcases hadd with ⟨ht1, hres, hpend⟩
          rw [hres, ← hcons] at heq1
          obtain ⟨hpend2, hseg1, g, hdesc, hex, hstp2⟩ :=
            ih p q r h lid _ true _ _ _ _ _ hq heq1
          have hst : treeSegStr (t.subtrees.getD
              (List.findIdx (fun st =>
                decide (treeSegStr st = segmentString s)) t.subtrees)
              newTreeRoot) = segmentString s :=
            of_decide_eq_true (findIdx_getD _ newTreeRoot t.subtrees _ rfl
              (by assumption))
          refine ⟨hpend.symm, ?_, g, ?_, hex, hstp2⟩
          · rw [← ht1]
            rfl
          · rw [← ht1]
            have hpred : (fun st => decide (treeSegStr st = segmentString s))
                st1 = true :=
              decide_eq_true (by
                rw [treeSegStr_congr st1 _ hseg1]
                exact hst)
            simp only [List.map_cons, descendSegs, replaceSub_subtrees]
            rw [find?_set_findIdx _ t.subtrees _ st1 rfl (by assumption) hpred]
            exact hdesc
      · -- new subtree
        split at hadd
        · simp at hadd
        · rename_i st heq0
          split at hadd
          · simp at hadd
          · split at hadd
            · rename_i st1 leaf1 heq1
              rw [← hcons] at heq1
              have hIH := ih p q r h lid _ true _ _ _ _ _ hq heq1
              exact absurd hIH.1 (by simp)
            · rename_i st1 res snd hnotp heq1
              simp only [Prod.mk.injEq] at hadd
              rcases hadd with ⟨ht1, hres, hpend⟩
              rw [hres, ← hcons] at heq1
              obtain ⟨hpend2, hseg1, g, hdesc, hex, hstp2⟩ :=
                ih p q r h lid _ true _ _ _ _ _ hq heq1
              refine ⟨hpend.symm, ?_, g, ?_, hex, hstp2⟩
              · rw [← ht1]
                rfl
              · rw [← ht1]
                have hpred : (fun st2 => decide (treeSegStr st2 = segmentString s))
                    st1 = true :=
                  decide_eq_true (by
                    rw [treeSegStr_congr st1 st hseg1]
                    exact treeSegStr_some _ _ (newTree_ok _ _ _ _ heq0))
                simp only [List.map_cons, descendSegs, subtrees_mk]
                rw [find?_insertTreeOrdered
                  (fun st2 => decide (treeSegStr st2 = segmentString s))
                  t.subtrees st1
                  (findIdx_ge_all_false
                    (fun st2 => decide (treeSegStr st2 = segmentString s))
                    t.subtrees (by omega)) hpred]
                exact hdesc

/-- The extra leaf of the optional route `/a/b/?c` is not installed on
the parent node `/b` of the full leaf (which holds only the `/?c` leaf)
but on the grandparent node `/a`, which has a grandparent of its own
(the root is above it); and the one-segment optional route `/?x` does
not register two outcomes at all — `AddRoute` dereferences the root's
nil segment. -/
theorem optional_leaf_parent_counterexample :
    (addRouteT newTreeRoot abcRoute 3 0).2.isOk = true ∧
    ((descendSegs abcTree ["/a", "/b"]).map
      (fun g => g.leaves.map (fun l => segmentString l.segment))) =
      some ["/?c"] ∧
    ((descendSegs abcTree ["/a"]).map
      (fun g => g.leaves.map (fun l => (segmentString l.segment, l.handlerId)))) =
      some [("/b", 3)] ∧
    (addRouteT newTreeRoot ((parseRouteStr "/?x").getD ⟨[]⟩) 3 0).2 =
      .error .nilSegmentPanic :=
  ⟨rfl, rfl, rfl, rfl⟩

/-- **C5.** For a route of two or more segments whose terminal segment
is optional, a successful registration installs two outcomes with the
same handler: the full leaf on the node of the next-to-last segment and
the extra tail-less leaf on that node's parent — the grandparent of the
full leaf.  Concretely, the tree of `/a/b/?c` matches both `/a/b/c` and
`/a/b` with the same handler. -/
theorem optional_leaf_grandparent :
    (∀ (eng : RegexEngine) (header : List (String × String)),
      (treeMatchT eng abcTree "/a/b/c" header).map (fun lp => lp.1.handlerId) =
        some 3 ∧
      (treeMatchT eng abcTree "/a/b" header).map (fun lp => lp.1.handlerId) =
        some 3) ∧
    (∀ (pre : List Segment) (p q : Segment) (r : Route) (h lid : Nat)
      (t : Tree) (hasParent : Bool) (chain : List MatchStyle)
      (parentBinds : List String) (t1 : Tree) (leaf : Leaf) (pend : Bool),
      q.optional = true →
      addNextSegment r h (pre ++ [p, q]) t hasParent chain parentBinds lid =
        (t1, .ok leaf, pend) →
      pend = false ∧ t1.segment = t.segment ∧
      ∃ g, descendSegs t1 (pre.map segmentString) = some g ∧
        (∃ l2, l2 ∈ g.leaves ∧ segmentString l2.segment = segmentString p ∧
          l2.handlerId = h) ∧
        (∃ stp, g.subtrees.find? (fun st => treeSegStr st = segmentString p) =
            some stp ∧
          leaf ∈ stp.leaves ∧ segmentString leaf.segment = segmentString q ∧
          leaf.handlerId = h)) :=
  ⟨fun _ _ => ⟨rfl, rfl⟩, addNextSegment_optional_grandparent⟩

/-- Registering `/a/b/?c` at the root: the full `/?c` leaf sits under
the `/b` child of the `/a` node, and the extra `/b` leaf sits on the
`/a` node itself, both with handler 3. -/
theorem optional_leaf_grandparent_witness :
    abcAddOut.2.2 = false ∧
    (abcAddOut.1).segment = newTreeRoot.segment ∧
    ∃ g, descendSegs abcAddOut.1 ([abcSeg 0].map segmentString) = some g ∧
      (∃ l2, l2 ∈ g.leaves ∧
        segmentString l2.segment = segmentString (abcSeg 1) ∧
        l2.handlerId = 3) ∧
      (∃ stp, g.subtrees.find?
          (fun st => treeSegStr st = segmentString (abcSeg 1)) = some stp ∧
        abcAddOut.2.1.toOption.getD dflLeaf ∈ stp.leaves ∧
        segmentString (abcAddOut.2.1.toOption.getD dflLeaf).segment =
          segmentString (abcSeg 2) ∧
        (abcAddOut.2.1.toOption.getD dflLeaf).handlerId = 3) :=
  optional_leaf_grandparent.2 [abcSeg 0] (abcSeg 1) (abcSeg 2) abcRoute 3 0
    newTreeRoot false [MatchStyle.none] [] abcAddOut.1
    (abcAddOut.2.1.toOption.getD dflLeaf) abcAddOut.2.2 rfl rfl

/-- Appending the empty string is the identity. -/
theorem str_append_empty (a : String) : a ++ "" = a :=
  congrArg String.mk (List.append_nil a.data)

/-- String concatenation is associative. -/
theorem str_append_assoc (a b c : String) : a ++ b ++ c = a ++ (b ++ c) :=
  congrArg String.mk (List.append_assoc a.data b.data c.data)

/-- `String.join` peels off the head. -/
theorem str_join_cons (a : String) (l : List String) :
    String.join (a :: l) = a ++ String.join l := by
  have hacc : ∀ (l2 : List String) (acc : String),
      l2.foldl (fun r s => r ++ s) acc =
      acc ++ l2.foldl (fun r s => r ++ s) "" := by
    intro l2
    induction l2 with
    | nil => intro acc; exact (str_append_empty acc).symm
    | cons b l2 ih =>
      intro acc
      simp only [List.foldl_cons]
      show List.foldl (fun r s => r ++ s) (acc ++ b) l2 =
        acc ++ List.foldl (fun r s => r ++ s) b l2
      rw [ih (acc ++ b), ih b, str_append_assoc]
  show (a :: l).foldl (fun r s => r ++ s) "" = a ++ l.foldl (fun r s => r ++ s) ""
  simp only [List.foldl_cons]
  exact hacc l a

/-- The rendered parameter list is the first parameter followed by the
comma-prefixed rendering of the rest. -/
theorem bindParametersString_decomp (p : BindParameter) :
    ∀ ps, bindParametersString (p :: ps) =
      bindParameterString p ++ paramsSuffixString ps := by
  intro ps
  induction ps generalizing p with
  | nil => exact (str_append_empty _).symm
  | cons p2 rest ih =>
    show bindParameterString p ++ ", " ++ bindParametersString (p2 :: rest) = _
    rw [ih p2]
    show bindParameterString p ++ ", " ++
      (bindParameterString p2 ++ paramsSuffixString rest) = _
    rw [str_append_assoc]
    rfl

/-- The canonical text of a bind parameter value is the rendering of the
parsed value, on exactly the inputs the parser accepts. -/
theorem canonValue_spec (cs : List Char) :
    canonValue cs = (parseValue cs).map
      (fun vr => (bindParameterValueString vr.1, vr.2)) := by
  unfold canonValue parseValue
  split
  · rfl
  · split
    · split
      · rfl
      · rfl
    · rfl

/-- The canonical text of a bind parameter is the rendering of the
parsed parameter. -/
theorem canonParam_spec (cs : List Char) :
    canonParam cs = (parseParam cs).map
      (fun pr => (bindParameterString pr.1, pr.2)) := by
  unfold canonParam parseParam
  split
  · rename_i pid cs1 heq
    rw [canonValue_spec]
    cases parseValue (skipSpaces cs1) with
    | none => rfl
    | some vr => rfl
  · rfl

/-- The canonical text of the parameter continuation is the
comma-prefixed rendering of the parsed parameters. -/
theorem canonParamsAux_spec :
    ∀ (fuel : Nat) (cs : List Char),
    canonParamsAux fuel cs = (parseParamsAux fuel cs).map
      (fun pr => (paramsSuffixString pr.1, pr.2)) := by
  intro fuel
  induction fuel with
  | zero => intro cs; rfl
  | succ fuel ih =>
    intro cs
    unfold canonParamsAux parseParamsAux
    split
    · rename_i cs1
      rw [canonParam_spec]
      cases hp : parseParam (skipSpaces cs1) with
      | none => rfl
      | some pr =>
        cases pr with
        | mk p cs2 =>
          simp only [Option.map]
          rw [ih]
          cases hq : parseParamsAux fuel cs2 with
          | none => rfl
          | some qr => rfl
    · rw [canonParam_spec]
      cases hp : parseParam cs with
      | none => rfl
      | some pr =>
        cases pr with
        | mk p cs2 =>
          simp only [Option.map]
          rw [ih]
          cases hq : parseParamsAux fuel cs2 with
          | none => rfl
          | some qr => rfl

/-- The canonical text of a `BindParameters` production is the rendering
of the parsed parameter list. -/
theorem canonParams_spec (fuel : Nat) (cs : List Char) :
    canonParams fuel cs = (parseParams fuel cs).map
      (fun pr => (bindParametersString pr.1, pr.2)) := by
  unfold canonParams parseParams
  rw [canonParam_spec]
  cases hp : parseParam cs with
  | none => rfl
  | some pr =>
    cases pr with
    | mk p cs1 =>
      simp only [Option.map]
      rw [canonParamsAux_spec]
      cases hq : parseParamsAux fuel cs1 with
      | none => rfl
      | some qr =>
        cases qr with
        | mk ps rest =>
          show some (bindParameterString p ++ paramsSuffixString ps, rest) =
            some (bindParametersString (p :: ps), rest)
          rw [bindParametersString_decomp]

/-- The parser never returns an empty parameter list. -/
theorem parseParams_ne_nil (fuel : Nat) (cs : List Char) (ps : List BindParameter)
    (rest : List Char) :
    parseParams fuel cs = some (ps, rest) → ps ≠ [] := by
  intro hp
  unfold parseParams at hp
  split at hp
  · split at hp
    · cases hp
      simp
    · cases hp
  · cases hp

/-- The canonical text of an element is the rendering of the parsed
element. -/
theorem canonElement_spec (fuel : Nat) (cs : List Char) :
    canonElement fuel cs = (parseElement fuel cs).map
      (fun er => (segmentElementString er.1, er.2)) := by
  unfold canonElement parseElement
  split
  · rename_i cs1
    split
    · rfl
    · rename_i hno
      rw [canonParams_spec]
      cases hp : parseParams fuel cs1 with
      | none => rfl
      | some pr =>
        cases pr with
        | mk ps cs2 =>
          simp only [Option.map]
          have hne : ps ≠ [] := parseParams_ne_nil fuel cs1 ps cs2 hp
          cases cs2 with
          | nil => rfl
          | cons c cs3 =>
            by_cases hc : c = '}'
            · subst hc
              cases ps with
              | nil => exact absurd rfl hne
              | cons p ps' => rfl
            · split
              · rename_i heq
                simp only [Option.some.injEq, Prod.mk.injEq,
                  List.cons.injEq] at heq
                exact absurd heq.2.1 hc
              · split
                · rename_i x heq2
                  split at heq2
                  · rename_i heq3
                    simp only [Option.some.injEq, Prod.mk.injEq,
                      List.cons.injEq] at heq3
                    exact absurd heq3.2.1 hc
                  · cases heq2
                · rfl
  · split
    · rfl
    · rfl

/-- The canonical text of `Element*` is the joined rendering of the
parsed elements. -/
theorem canonElementsAux_spec :
    ∀ (fuel : Nat) (cs : List Char),
    canonElementsAux fuel cs =
      (String.join ((parseElementsAux fuel cs).1.map segmentElementString),
        (parseElementsAux fuel cs).2) := by
  intro fuel
  induction fuel with
  | zero => intro cs; rfl
  | succ fuel ih =>
    intro cs
    unfold canonElementsAux parseElementsAux
    rw [canonElement_spec]
    cases he : parseElement (fuel + 1) cs with
    | none => rfl
    | some er =>
      cases er with
      | mk e cs1 =>
        simp only [Option.map]
        rw [ih]
        show (segmentElementString e ++
          String.join ((parseElementsAux fuel cs1).1.map segmentElementString),
          (parseElementsAux fuel cs1).2) = _
        rw [← str_join_cons]
        rfl

/-- The canonical text of a segment is `Segment.String()` of the parsed
segment. -/
theorem canonSegment_spec (fuel : Nat) (cs : List Char) :
    canonSegment fuel cs = (parseSegment fuel cs).map
      (fun sr => (segmentString sr.1, sr.2)) := by
  unfold canonSegment parseSegment
  split
  · rename_i cs1
    split
    · rename_i cs2
      rw [canonElementsAux_spec]
      rfl
    · rw [canonElementsAux_spec]
      rfl
  · rfl

/-- The canonical text of `Segment+` is the joined rendering of the
parsed segments. -/
theorem canonSegmentsAux_spec :
    ∀ (fuel : Nat) (cs : List Char),
    canonSegmentsAux fuel cs =
      (String.join ((parseSegmentsAux fuel cs).1.map segmentString),
        (parseSegmentsAux fuel cs).2) := by
  intro fuel
  induction fuel with
  | zero => intro cs; rfl
  | succ fuel ih =>
    intro cs
    unfold canonSegmentsAux parseSegmentsAux
    rw [canonSegment_spec]
    cases he : parseSegment (fuel + 1) cs with
    | none => rfl
    | some sr =>
      cases sr with
      | mk s cs1 =>
        simp only [Option.map]
        rw [ih]
        show (segmentString s ++
          String.join ((parseSegmentsAux fuel cs1).1.map segmentString),
          (parseSegmentsAux fuel cs1).2) = _
        rw [← str_join_cons]
        rfl

/-- A rendered segment starts with a slash, so no continuation of it is
empty. -/
theorem segmentString_append_ne_empty (s : Segment) (x : String) :
    (segmentString s ++ x).isEmpty = false := by
  rw [Bool.eq_false_iff]
  intro h
  have h2 := congrArg String.data ((String.isEmpty_iff _).1 h)
  rw [show (segmentString s ++ x).data = '/' ::
    (((if s.optional then "?" else "").data ++
      (String.join (s.elements.map segmentElementString)).data) ++ x.data)
    from rfl] at h2
  simp at h2

/-- On every accepted input, the canonical text exists and equals
`Route.String()` of the parse result. -/
theorem canonRouteCs_spec (cs : List Char) (r : Route) :
    parseRouteCs cs = some r → canonRouteCs cs = some (routeString r) := by
  intro hp
  unfold parseRouteCs at hp
  unfold canonRouteCs
  rw [canonSegmentsAux_spec]
  cases hs : parseSegmentsAux (cs.length + 1) cs with
  | mk ss rest =>
    rw [hs] at hp
    cases ss with
    | nil => simp at hp
    | cons s ss2 =>
      simp only [List.isEmpty_cons, Bool.false_eq_true, if_false] at hp
      simp only [List.map_cons, str_join_cons, segmentString_append_ne_empty,
        Bool.false_eq_true, if_false]
      split at hp
      · rename_i hre
        cases hp
        rw [if_pos hre]
        simp [routeString, str_join_cons]
      · cases hp

/-- The parser accepts `/{id:foo}` (the grammar allows zero spaces after
the colon), but `Route.String()` renders the colon with a space:
the round-trip is not the identity on this accepted input. -/
theorem route_string_roundtrip_counterexample :
    (parseRouteStr "/{id:foo}").map routeString = some "/{id: foo}" ∧
    ("/{id: foo}" : String) ≠ "/{id:foo}" :=
  ⟨rfl, by decide⟩

/-- **C3.** For every route string `R` the parser accepts with result
`a`, `Route.String()` of `a` equals the canonicalization of `R` (colon
and comma separators re-rendered as `": "` and `", "`); the round-trip
`a.String() = R` therefore holds exactly on inputs that are already in
canonical form, not on all accepted inputs. -/
theorem route_string_roundtrip :
    ∀ (R : String) (a : Route), parseRouteStr R = some a →
      canonRouteStr R = some (routeString a) ∧
      (canonRouteStr R = some R → routeString a = R) := by
  intro R a hp
  have h1 := canonRouteCs_spec R.data a hp
  refine ⟨h1, fun h2 => ?_⟩
  unfold canonRouteStr at h2
  rw [h1] at h2
  exact Option.some.inj h2

/-- The canonical input `/files/{path: **, capture: 2}` round-trips. -/
theorem route_string_roundtrip_witness :
    canonRouteStr "/files/{path: **, capture: 2}" =
      some (routeString
        ((parseRouteStr "/files/{path: **, capture: 2}").getD ⟨[]⟩)) ∧
    (canonRouteStr "/files/{path: **, capture: 2}" =
        some "/files/{path: **, capture: 2}" →
      routeString ((parseRouteStr "/files/{path: **, capture: 2}").getD ⟨[]⟩) =
        "/files/{path: **, capture: 2}") :=
  route_string_roundtrip _ _ rfl

/-- Match-all has the maximal rank. -/
theorem rank_le_four (s : MatchStyle) : s.rank ≤ 4 := by
  cases s <;> decide

/-- Only match-all has rank 4. -/
theorem rank_eq_four_iff (s : MatchStyle) : s.rank = 4 ↔ s = .all := by
  cases s <;> decide

/-- Cons characterization of `ranksSorted`. -/
theorem ranksSorted_cons_iff (a : Nat) (l : List Nat) :
    ranksSorted (a :: l) = true ↔
    ((∀ b, l.head? = some b → a ≤ b) ∧ ranksSorted l = true) := by
  cases l with
  | nil => simp [ranksSorted]
  | cons b rest => simp [ranksSorted]

/-- Inserting at the first strictly-greater position keeps a rank list
sorted. -/
theorem ranksSorted_insert {α : Type} (f : α → Nat) :
    ∀ (ls : List α) (x : α),
    ranksSorted (ls.map f) = true →
    ranksSorted ((ls.take (ls.findIdx fun y => f x < f y) ++ x ::
      ls.drop (ls.findIdx fun y => f x < f y)).map f) = true := by
  intro ls
  induction ls with
  | nil => intro x _; rfl
  | cons a ls ih =>
    intro x hs
    rw [List.map_cons, ranksSorted_cons_iff] at hs
    rw [List.findIdx_cons]
    by_cases hp : f x < f a
    · rw [decide_eq_true hp]
      show ranksSorted ((x :: a :: ls).map f) = true
      rw [List.map_cons, List.map_cons, ranksSorted_cons_iff]
      constructor
      · intro b hb
        simp only [List.head?_cons, Option.some.injEq] at hb
        omega
      · rw [ranksSorted_cons_iff]
        exact hs
    · rw [decide_eq_false hp]
      show ranksSorted ((a :: (ls.take (ls.findIdx fun y => f x < f y) ++ x ::
        ls.drop (ls.findIdx fun y => f x < f y))).map f) = true
      rw [List.map_cons, ranksSorted_cons_iff]
      constructor
      · intro b hb
        cases htake : ls.take (ls.findIdx fun y => f x < f y) with
        | nil =>
          rw [htake] at hb
          simp only [List.nil_append, List.map_cons, List.head?_cons,
            Option.some.injEq] at hb
          omega
        | cons c cs =>
          rw [htake] at hb
          simp only [List.cons_append, List.map_cons, List.head?_cons,
            Option.some.injEq] at hb
          have hc : ls.head? = some c := by
            cases ls with
            | nil => simp at htake
            | cons d ds =>
              cases hn : (d :: ds).findIdx fun y => f x < f y with
              | zero => rw [hn] at htake; simp at htake
              | succ m =>
                rw [hn] at htake
                simp only [List.take_succ_cons, List.cons.injEq] at htake
                simp [htake.1]
          rw [← hb]
          exact hs.1 (f c) (by rw [List.head?_map, hc]; rfl)
      · exact ih x hs.2

/-- The filter count after an ordered insertion. -/
theorem filter_insert_count {α : Type} (p : α → Bool) (ls : List α) (x : α)
    (i : Nat) :
    ((ls.take i ++ x :: ls.drop i).filter p).length =
      (ls.filter p).length + (if p x then 1 else 0) := by
  conv_rhs => rw [← List.take_append_drop i ls]
  rw [List.filter_append, List.filter_append, List.filter_cons,
    List.length_append, List.length_append]
  split <;> simp <;> omega

/-- In a rank-sorted list, a match-all member forces a match-all last
element. -/
theorem sorted_all_last {α : Type} (sty : α → MatchStyle) :
    ∀ (ls : List α),
    ranksSorted (ls.map fun y => (sty y).rank) = true →
    ∀ y ∈ ls, sty y = .all →
    ∃ z, ls.getLast? = some z ∧ sty z = .all := by
  intro ls
  induction ls with
  | nil => intro _ y hy; simp at hy
  | cons a tl ih =>
    intro hs y hy hall
    rw [List.map_cons, ranksSorted_cons_iff] at hs
    cases tl with
    | nil =>
      rcases List.mem_cons.1 hy with rfl | hy2
      · exact ⟨y, rfl, hall⟩
      · simp at hy2
    | cons b tl2 =>
      have hlast : (a :: b :: tl2).getLast? = (b :: tl2).getLast? := rfl
      rw [hlast]
      rcases List.mem_cons.1 hy with rfl | hy2
      · have hb : sty b = .all := by
          have h1 : (sty y).rank ≤ (sty b).rank :=
            hs.1 (sty b).rank (by rw [List.head?_map]; rfl)
          rw [hall] at h1
          have h1b : 4 ≤ (sty b).rank := h1
          have h2 := rank_le_four (sty b)
          rw [← rank_eq_four_iff]
          omega
        exact ih hs.2 b (by simp) hb
      · exact ih hs.2 y hy2 hall

/-- Replacing an element by one with the same image leaves the mapped
list unchanged. -/
theorem map_set_same {α β : Type} (f : α → β) :
    ∀ (l : List α) (i : Nat) (x : α) (d : α), i < l.length →
    f x = f (l.getD i d) → (l.set i x).map f = l.map f := by
  intro l
  induction l with
  | nil => intro i x d hi; simp at hi
  | cons a tl ih =>
    intro i x d hi hf
    cases i with
    | zero =>
      simp only [List.getD_cons_zero] at hf
      simp [List.set, hf]
    | succ j =>
      simp only [List.getD_cons_succ] at hf
      simp only [List.set, List.map_cons]
      rw [ih j x d (by simpa using hi) hf]

/-- Replacing an element by one with the same predicate value keeps the
filter count. -/
theorem filter_set_same {α : Type} (p : α → Bool) :
    ∀ (l : List α) (i : Nat) (x : α) (d : α), i < l.length →
    p x = p (l.getD i d) →
    ((l.set i x).filter p).length = (l.filter p).length := by
  intro l
  induction l with
  | nil => intro i x d hi; simp at hi
  | cons a tl ih =>
    intro i x d hi hp
    cases i with
    | zero =>
      simp only [List.getD_cons_zero] at hp
      simp only [List.set, List.filter_cons, hp]
      split <;> simp
    | succ j =>
      simp only [List.getD_cons_succ] at hp
      simp only [List.set, List.filter_cons]
      split <;> simp [ih j x d (by simpa using hi) hp]

/-- `TreeOrderedList` is membership-wise `TreeOrdered`. -/
theorem TreeOrderedList_iff :
    ∀ (l : List Tree), TreeOrderedList l = true ↔
      ∀ st ∈ l, TreeOrdered st = true := by
  intro l
  induction l with
  | nil => simp [TreeOrderedList]
  | cons a tl ih =>
    rw [TreeOrderedList, Bool.and_eq_true, ih]
    constructor
    · rintro ⟨h1, h2⟩ st hst
      rcases List.mem_cons.1 hst with rfl | h3
      · exact h1
      · exact h2 st h3
    · intro h
      exact ⟨h a (by simp), fun st hst => h st (by simp [hst])⟩

/-- `insertLeafOrdered` as a take/cons/drop split. -/
theorem insertLeafOrdered_eq (ls : List Leaf) (l : Leaf) :
    insertLeafOrdered ls l =
      ls.take (ls.findIdx fun x => l.style.rank < x.style.rank) ++ l ::
        ls.drop (ls.findIdx fun x => l.style.rank < x.style.rank) := by
  simp [insertLeafOrdered]

/-- `insertTreeOrdered` as a take/cons/drop split. -/
theorem insertTreeOrdered_eq (sts : List Tree) (st : Tree) :
    insertTreeOrdered sts st =
      sts.take (sts.findIdx fun x => st.style.rank < x.style.rank) ++ st ::
        sts.drop (sts.findIdx fun x => st.style.rank < x.style.rank) := by
  simp [insertTreeOrdered]

/-- A rank-sorted list whose last element is not match-all contains no
match-all element. -/
theorem no_all_count_zero {α : Type} (sty : α → MatchStyle) (ls : List α)
    (hs : ranksSorted (ls.map fun y => (sty y).rank) = true)
    (hlast : ∀ z, ls.getLast? = some z → ¬ sty z = .all) :
    (ls.filter (fun y => sty y = .all)).length = 0 := by
  by_contra hne
  have hpos : 0 < (ls.filter (fun y => sty y = .all)).length := by omega
  rcases List.exists_mem_of_length_pos hpos with ⟨y, hy⟩
  rw [List.mem_filter] at hy
  rcases sorted_all_last sty ls hs y hy.1 (by simpa using hy.2) with ⟨z, hz, hza⟩
  exact hlast z hz hza

/-- `addLeaf`'s ordered insertion preserves the node invariants when
the match-all guard passed. -/
theorem insertLeaf_ordered (t : Tree) (l : Leaf)
    (ht : TreeOrdered t = true)
    (hguard : (decide (l.style = MatchStyle.all) && t.hasMatchAllLeaf) = false) :
    TreeOrdered (insertLeafInto t l) = true := by
  cases t with
  | mk k sg sts ls =>
    rw [show insertLeafInto (.mk k sg sts ls) l =
      .mk k sg sts (insertLeafOrdered ls l) from rfl]
    rw [TreeOrdered, Bool.and_eq_true] at ht
    rw [TreeOrdered, Bool.and_eq_true]
    refine ⟨?_, ht.2⟩
    have hn := ht.1
    unfold nodeOrdered at hn ⊢
    simp only [Tree.subtrees, Tree.leaves] at hn ⊢
    rw [Bool.and_eq_true, Bool.and_eq_true, Bool.and_eq_true] at hn
    rw [Bool.and_eq_true, Bool.and_eq_true, Bool.and_eq_true]
    refine ⟨⟨⟨hn.1.1.1, ?_⟩, hn.1.2⟩, ?_⟩
    · rw [insertLeafOrdered_eq]
      exact ranksSorted_insert (fun x => x.style.rank) ls l hn.1.1.2
    · rw [decide_eq_true_eq]
      rw [insertLeafOrdered_eq,
        filter_insert_count (fun x => decide (x.style = MatchStyle.all)) ls l]
      have hcount : (ls.filter
          (fun x => decide (x.style = MatchStyle.all))).length ≤ 1 :=
        of_decide_eq_true hn.2
      by_cases hall : l.style = MatchStyle.all
      · rw [Bool.and_eq_false_iff] at hguard
        rcases hguard with h1 | h2
        · rw [decide_eq_true hall] at h1
          cases h1
        · have h2b : ∀ z, ls.getLast? = some z → ¬ z.style = MatchStyle.all := by
            intro z hgl hza
            unfold Tree.hasMatchAllLeaf at h2
            simp only [Tree.leaves] at h2
            rw [hgl] at h2
            simp [hza] at h2
          have hz := no_all_count_zero Leaf.style ls hn.1.1.2 h2b
          rw [hz]
          simp [hall]
      · simp only [hall]
        simp [hall, hcount]

/-- Replacing a subtree by an ordered one of the same style preserves
the invariant. -/
theorem replaceSub_ordered (t : Tree) (i : Nat) (x : Tree)
    (ht : TreeOrdered t = true) (hx : TreeOrdered x = true)
    (hi : i < t.subtrees.length)
    (hsty : x.style = (t.subtrees.getD i newTreeRoot).style) :
    TreeOrdered (replaceSub t i x) = true := by
  cases t with
  | mk k sg sts ls =>
    simp only [Tree.subtrees] at hi hsty
    rw [show replaceSub (.mk k sg sts ls) i x =
      .mk k sg (sts.set i x) ls from rfl]
    rw [TreeOrdered, Bool.and_eq_true] at ht
    rw [TreeOrdered, Bool.and_eq_true]
    constructor
    · have hn := ht.1
      unfold nodeOrdered at hn ⊢
      simp only [Tree.subtrees, Tree.leaves] at hn ⊢
      rw [Bool.and_eq_true, Bool.and_eq_true, Bool.and_eq_true] at hn
      rw [Bool.and_eq_true, Bool.and_eq_true, Bool.and_eq_true]
      refine ⟨⟨⟨?_, hn.1.1.2⟩, ?_⟩, hn.2⟩
      · rw [map_set_same (fun st => st.style.rank) sts i x newTreeRoot hi
          (by simp only []; rw [hsty])]
        exact hn.1.1.1
      · rw [decide_eq_true_eq]
        rw [filter_set_same (fun st => decide (st.style = MatchStyle.all))
          sts i x newTreeRoot hi (by simp only []; rw [hsty])]
        exact of_decide_eq_true hn.1.2
    · rw [TreeOrderedList_iff]
      intro st hst
      rcases List.mem_or_eq_of_mem_set hst with h1 | h2
      · exact (TreeOrderedList_iff sts).1 ht.2 st h1
      · rw [h2]
        exact hx

/-- `addSubtree`'s ordered insertion preserves the invariant when the
match-all guard passed. -/
theorem insertSubtree_ordered (t : Tree) (x : Tree)
    (ht : TreeOrdered t = true) (hx : TreeOrdered x = true)
    (hguard : (decide (x.style = MatchStyle.all) &&
      t.hasMatchAllSubtree) = false) :
    TreeOrdered (.mk t.kind t.segment (insertTreeOrdered t.subtrees x)
      t.leaves) = true := by
  cases t with
  | mk k sg sts ls =>
  simp only [Tree.kind, Tree.segment, Tree.subtrees, Tree.leaves] at hguard ⊢
  rw [TreeOrdered, Bool.and_eq_true] at ht
  rw [TreeOrdered, Bool.and_eq_true]
  constructor
  · have hn := ht.1
    unfold nodeOrdered at hn ⊢
    simp only [Tree.subtrees, Tree.leaves] at hn ⊢
    rw [Bool.and_eq_true, Bool.and_eq_true, Bool.and_eq_true] at hn
    rw [Bool.and_eq_true, Bool.and_eq_true, Bool.and_eq_true]
    refine ⟨⟨⟨?_, hn.1.1.2⟩, ?_⟩, hn.2⟩
    · rw [insertTreeOrdered_eq]
      exact ranksSorted_insert (fun st => st.style.rank) sts x hn.1.1.1
    · rw [decide_eq_true_eq]
      rw [insertTreeOrdered_eq,
        filter_insert_count (fun st => decide (st.style = MatchStyle.all)) sts x]
      have hcount : (sts.filter
          (fun st => decide (st.style = MatchStyle.all))).length ≤ 1 :=
        of_decide_eq_true hn.1.2
      by_cases hall : x.style = MatchStyle.all
      · rw [Bool.and_eq_false_iff] at hguard
        rcases hguard with h1 | h2
        · rw [decide_eq_true hall] at h1
          cases h1
        · have h2b : ∀ z, sts.getLast? = some z →
              ¬ z.style = MatchStyle.all := by
            intro z hgl hza
            unfold Tree.hasMatchAllSubtree at h2
            simp only [Tree.subtrees] at h2
            rw [hgl] at h2
            simp [hza] at h2
          have hz := no_all_count_zero Tree.style sts hn.1.1.1 h2b
          rw [hz]
          simp [hall]
      · simp [hall, hcount]
  · rw [TreeOrderedList_iff]
    intro st hst
    rw [insertTreeOrdered_eq] at hst
    rcases List.mem_append.1 hst with h1 | h2
    · exact (TreeOrderedList_iff sts).1 ht.2 st (List.take_subset _ _ h1)
    · rcases List.mem_cons.1 h2 with rfl | h3
      · exact hx
      · exact (TreeOrderedList_iff sts).1 ht.2 st (List.drop_subset _ _ h3)

/-- A freshly created subtree is ordered (its lists are empty). -/
theorem newTree_ordered (chain : List MatchStyle) (pb : List String)
    (s : Segment) (st : Tree) :
    newTree chain pb s = .ok st → TreeOrdered st = true := by
  intro hl
  unfold newTree at hl
  repeat' split at hl
  all_goals first
    | (cases hl; rfl)
    | simp at hl

/-- `TreeOrdered` splits into the node invariant and the subtree
list. -/
theorem TreeOrdered_parts (t : Tree) :
    TreeOrdered t = (nodeOrdered t && TreeOrderedList t.subtrees) := by
  cases t
  rfl

/-- The style is determined by the kind. -/
theorem style_congr (t1 t2 : Tree) (h : t1.kind = t2.kind) :
    t1.style = t2.style := by
  unfold Tree.style
  rw [h]

/-- `hasMatchAllSubtree` only reads the subtree list. -/
theorem hasMatchAllSubtree_congr (t1 t2 : Tree)
    (h : t1.subtrees = t2.subtrees) :
    t1.hasMatchAllSubtree = t2.hasMatchAllSubtree := by
  unfold Tree.hasMatchAllSubtree
  rw [h]

/-- Inserting a leaf does not change a node's kind. -/
theorem insertLeafInto_kind (t : Tree) (l : Leaf) :
    (insertLeafInto t l).kind = t.kind := rfl

/-- `getD` at a valid index is a member. -/
theorem getD_mem_of_lt {α : Type} (l : List α) (i : Nat) (d : α)
    (h : i < l.length) : l.getD i d ∈ l := by
  rw [List.getD_eq_getElem l d h]
  exact List.getElem_mem h

/-- `addLeaf` preserves the ordering invariant; a reported pending
optional leaf can still be inserted into the (unchanged) node. -/
theorem addLeafCore_preserves (t : Tree) (hp : Bool) (ch : List MatchStyle)
    (pb : List String) (r : Route) (s : Segment) (h : Nat) (lid : Nat)
    (t1 : Tree) (res : Except AddErr Leaf) (pend : Bool)
    (he : addLeafCore t hp ch pb r s h lid = (t1, res, pend))
    (ht : TreeOrdered t = true) :
    TreeOrdered t1 = true ∧ t1.kind = t.kind ∧ t1.segment = t.segment ∧
    (∀ leaf, res = .ok leaf → pend = true →
      TreeOrdered (insertLeafInto t1 leaf) = true) := by
  unfold addLeafCore at he
  split at he
  · cases he
    exact ⟨ht, rfl, rfl, by intro leaf h1 _; cases h1⟩
  · split at he
    · cases he
      exact ⟨ht, rfl, rfl, by intro leaf h1 _; cases h1⟩
    · rename_i leaf0 hnew
      split at he
      · cases he
        exact ⟨ht, rfl, rfl, by intro leaf h1 _; cases h1⟩
      · rename_i hguard
        split at he
        · split at he
          · cases he
            refine ⟨ht, rfl, rfl, ?_⟩
            intro leaf h1 _
            cases Except.ok.inj h1
            exact insertLeaf_ordered t leaf0 ht (eq_false_of_ne_true hguard)
          · cases he
            exact ⟨ht, rfl, rfl, by intro leaf h1 _; cases h1⟩
        · cases he
          refine ⟨?_, rfl, rfl, by intro leaf _ h2; cases h2⟩
          exact insertLeaf_ordered t leaf0 ht (eq_false_of_ne_true hguard)

/-- The route-addition recursion preserves the ordering invariant at
every node, the root fields, and the pending-insert property. -/
theorem addNextSegment_ordered :
    ∀ (segs : List Segment) (r : Route) (h : Nat) (t : Tree) (hp : Bool)
      (ch : List MatchStyle) (pb : List String) (lid : Nat) (t1 : Tree)
      (res : Except AddErr Leaf) (pend : Bool),
    addNextSegment r h segs t hp ch pb lid = (t1, res, pend) →
    TreeOrdered t = true →
    TreeOrdered t1 = true ∧ t1.kind = t.kind ∧ t1.segment = t.segment ∧
    (∀ leaf, res = .ok leaf → pend = true →
      TreeOrdered (insertLeafInto t1 leaf) = true) := by
  intro segs
  induction segs with
  | nil =>
    intro r h t hp ch pb lid t1 res pend he ht
    unfold addNextSegment at he
    cases he
    exact ⟨ht, rfl, rfl, by intro leaf h1 _; cases h1⟩
  | cons s rest ih =>
    cases rest with
    | nil =>
      intro r h t hp ch pb lid t1 res pend he ht
      exact addLeafCore_preserves t hp ch pb r s h lid t1 res pend he ht
    | cons s2 rest2 =>
      intro r h t hp ch pb lid t1 res pend he ht
      simp only [addNextSegment] at he
      split at he
      · cases he
        exact ⟨ht, rfl, rfl, by intro leaf h1 _; cases h1⟩
      · simp only [addSubtree] at he
        split at he
        · -- existing subtree
          rename_i hi
          have hstmem : t.subtrees.getD
              (t.subtrees.findIdx fun st =>
                treeSegStr st = segmentString s) newTreeRoot ∈ t.subtrees :=
            getD_mem_of_lt _ _ _ hi
          have htparts := (TreeOrdered_parts t) ▸ ht
          rw [Bool.and_eq_true] at htparts
          have hst : TreeOrdered (t.subtrees.getD
              (t.subtrees.findIdx fun st =>
                treeSegStr st = segmentString s) newTreeRoot) = true :=
            (TreeOrderedList_iff _).1 htparts.2 _ hstmem
          split at he
          · -- pending inner result
            rename_i st1 leaf1 heq1
            obtain ⟨ho1, hk1, hs1, hins1⟩ := ih r h _ true _ _ lid st1
              (.ok leaf1) true heq1 hst
            split at he
            · rename_i ps hps
              split at he
              · rename_i t0a a heq3
                obtain ⟨ho3, hk3, hs3, _⟩ := addLeafCore_preserves t hp ch pb
                  r ps h (lid + 1) t0a (.ok a) false heq3 ht
                obtain ⟨_, _, hsub3⟩ := addLeafCore_fields t hp ch pb
                  r ps h (lid + 1) t0a (.ok a) false heq3
                cases he
                refine ⟨?_, hk3, hs3, by intro leaf _ h2; cases h2⟩
                refine replaceSub_ordered t0a _ _ ho3
                  (hins1 leaf1 rfl rfl) ?_ ?_
                · rw [hsub3]
                  exact hi
                · rw [hsub3]
                  exact style_congr _ _ hk1
              · rename_i t0a e snd3 heq3
                obtain ⟨ho3, hk3, hs3, _⟩ := addLeafCore_preserves t hp ch pb
                  r ps h (lid + 1) t0a (.error e) _ heq3 ht
                obtain ⟨_, _, hsub3⟩ := addLeafCore_fields t hp ch pb
                  r ps h (lid + 1) t0a (.error e) _ heq3
                cases he
                refine ⟨?_, hk3, hs3, by intro leaf h1 _; cases h1⟩
                refine replaceSub_ordered t0a _ _ ho3 ho1 ?_ ?_
                · rw [hsub3]
                  exact hi
                · rw [hsub3]
                  exact style_congr _ _ hk1
              · rename_i t0a a heq3
                obtain ⟨ho3, hk3, hs3, _⟩ := addLeafCore_preserves t hp ch pb
                  r ps h (lid + 1) t0a (.ok a) true heq3 ht
                obtain ⟨_, _, hsub3⟩ := addLeafCore_fields t hp ch pb
                  r ps h (lid + 1) t0a (.ok a) true heq3
                cases he
                refine ⟨?_, hk3, hs3, by intro leaf h1 _; cases h1⟩
                refine replaceSub_ordered t0a _ _ ho3 ho1 ?_ ?_
                · rw [hsub3]
                  exact hi
                · rw [hsub3]
                  exact style_congr _ _ hk1
            · cases he
              exact ⟨ht, rfl, rfl, by intro leaf h1 _; cases h1⟩
          · -- non-pending inner result
            rename_i st1 res2 pend2 hnotp heq1
            obtain ⟨ho1, hk1, hs1, _⟩ := ih r h _ true _ _ lid st1
              res2 pend2 heq1 hst
            cases he
            refine ⟨?_, rfl, rfl, by intro leaf _ h2; cases h2⟩
            refine replaceSub_ordered t _ _ ht ho1 hi ?_
            exact style_congr _ _ hk1
        · -- new subtree
          rename_i hi
          split at he
          · cases he
            exact ⟨ht, rfl, rfl, by intro leaf h1 _; cases h1⟩
          · rename_i st heq0
            have hstord := newTree_ordered ch pb s st heq0
            split at he
            · cases he
              exact ⟨ht, rfl, rfl, by intro leaf h1 _; cases h1⟩
            · rename_i hgB
              split at he
              · rename_i st1 leaf1 heq1
                obtain ⟨ho1, hk1, hs1, hins1⟩ := ih r h st true _ _ lid st1
                  (.ok leaf1) true heq1 hstord
                split at he
                · rename_i t0a a heq3
                  obtain ⟨ho3, hk3, hs3, _⟩ := addLeafCore_preserves t hp ch
                    pb r s h (lid + 1) t0a (.ok a) false heq3 ht
                  obtain ⟨_, _, hsub3⟩ := addLeafCore_fields t hp ch pb
                    r s h (lid + 1) t0a (.ok a) false heq3
                  cases he
                  refine ⟨?_, hk3, hs3, by intro leaf _ h2; cases h2⟩
                  refine insertSubtree_ordered t0a _ ho3
                    (hins1 leaf1 rfl rfl) ?_
                  rw [show (insertLeafInto st1 leaf1).style = st.style from by
                    rw [style_congr _ st1 (insertLeafInto_kind st1 leaf1)]
                    exact style_congr _ _ hk1]
                  rw [hasMatchAllSubtree_congr t0a t hsub3]
                  exact eq_false_of_ne_true hgB
                · rename_i t0a e snd3 heq3
                  obtain ⟨ho3, hk3, hs3, _⟩ := addLeafCore_preserves t hp ch
                    pb r s h (lid + 1) t0a (.error e) _ heq3 ht
                  obtain ⟨_, _, hsub3⟩ := addLeafCore_fields t hp ch pb
                    r s h (lid + 1) t0a (.error e) _ heq3
                  cases he
                  refine ⟨?_, hk3, hs3, by intro leaf h1 _; cases h1⟩
                  refine insertSubtree_ordered t0a _ ho3 ho1 ?_
                  rw [show st1.style = st.style from style_congr _ _ hk1]
                  rw [hasMatchAllSubtree_congr t0a t hsub3]
                  exact eq_false_of_ne_true hgB
                · rename_i t0a a heq3
                  obtain ⟨ho3, hk3, hs3, _⟩ := addLeafCore_preserves t hp ch
                    pb r s h (lid + 1) t0a (.ok a) true heq3 ht
                  obtain ⟨_, _, hsub3⟩ := addLeafCore_fields t hp ch pb
                    r s h (lid + 1) t0a (.ok a) true heq3
                  cases he
                  refine ⟨?_, hk3, hs3, by intro leaf h1 _; cases h1⟩
                  refine insertSubtree_ordered t0a _ ho3 ho1 ?_
                  rw [show st1.style = st.style from style_congr _ _ hk1]
                  rw [hasMatchAllSubtree_congr t0a t hsub3]
                  exact eq_false_of_ne_true hgB
              · rename_i st1 res2 pend2 hnotp heq1
                obtain ⟨ho1, hk1, hs1, _⟩ := ih r h st true _ _ lid st1
                  res2 pend2 heq1 hstord
                cases he
                refine ⟨?_, rfl, rfl, by intro leaf _ h2; cases h2⟩
                refine insertSubtree_ordered t _ ht ho1 ?_
                rw [show st1.style = st.style from style_congr _ _ hk1]
                exact eq_false_of_ne_true hgB

/-- `take`/`drop` at `findIdx` are `takeWhile`/`dropWhile` of the
negated predicate. -/
theorem insert_take_drop_while {α : Type} (p : α → Bool) :
    ∀ (l : List α),
    l.take (l.findIdx p) = l.takeWhile (fun x => !p x) ∧
    l.drop (l.findIdx p) = l.dropWhile (fun x => !p x) := by
  intro l
  induction l with
  | nil => exact ⟨rfl, rfl⟩
  | cons a l ih =>
    rw [List.findIdx_cons]
    by_cases hp : p a
    · rw [hp]
      constructor
      · rw [List.takeWhile_cons, hp]
        rfl
      · rw [List.dropWhile_cons, hp]
        rfl
    · rw [eq_false_of_ne_true hp]
      constructor
      · rw [List.takeWhile_cons, eq_false_of_ne_true hp]
        show a :: l.take (l.findIdx p) = a :: l.takeWhile (fun x => !p x)
        rw [ih.1]
      · rw [List.dropWhile_cons, eq_false_of_ne_true hp]
        show l.drop (l.findIdx p) = l.dropWhile (fun x => !p x)
        rw [ih.2]

/-- Stability: a new leaf goes after every existing entry of its own or
smaller rank and before the strictly greater ones, so entries of equal
style stay in insertion order. -/
theorem insertLeafOrdered_stable (ls : List Leaf) (l : Leaf) :
    insertLeafOrdered ls l =
      ls.takeWhile (fun x => !(l.style.rank < x.style.rank)) ++ l ::
        ls.dropWhile (fun x => !(l.style.rank < x.style.rank)) := by
  rw [insertLeafOrdered_eq,
    (insert_take_drop_while (fun x => decide (l.style.rank < x.style.rank)) ls).1,
    (insert_take_drop_while (fun x => decide (l.style.rank < x.style.rank)) ls).2]

/-- Adding a second match-all leaf to one node is rejected with
`duplicatedMatchAllParam`. -/
theorem second_match_all_error (t : Tree) (hp : Bool) (ch : List MatchStyle)
    (pb : List String) (r : Route) (s : Segment) (h : Nat) (lid : Nat)
    (leaf : Leaf)
    (hnew : newLeaf ch pb lid r s h = .ok leaf)
    (hall : leaf.style = MatchStyle.all)
    (hhas : t.hasMatchAllLeaf = true)
    (hdup : (t.leaves.any fun l =>
      segmentString l.segment = segmentString s) = false) :
    addLeafCore t hp ch pb r s h lid =
      (t, .error .duplicatedMatchAllParam, false) := by
  unfold addLeafCore
  rw [hdup]
  simp only [Bool.false_eq_true, if_false]
  rw [hnew]
  simp [hall, hhas]

/-- **C4.** After every `AddRoute` call on trees satisfying the ordering
invariant (in particular after every successful sequence of calls
starting at a fresh root), every children list of every node — subtrees
and leaves — is sorted by ascending match style, entries of equal style
appear in insertion order (the insertion point is after all entries of
rank not above the new one), and each list holds at most one match-all
entry; adding a second match-all leaf to a node is rejected as
`duplicatedMatchAllParam`. -/
theorem children_lists_ordered :
    (TreeOrdered newTreeRoot = true) ∧
    (∀ (t : Tree) (r : Route) (h lid : Nat), TreeOrdered t = true →
      TreeOrdered (addRouteT t r h lid).1 = true) ∧
    (∀ (ls : List Leaf) (l : Leaf), insertLeafOrdered ls l =
      ls.takeWhile (fun x => !(l.style.rank < x.style.rank)) ++ l ::
        ls.dropWhile (fun x => !(l.style.rank < x.style.rank))) ∧
    (∀ (t : Tree) (hp : Bool) (ch : List MatchStyle) (pb : List String)
      (r : Route) (s : Segment) (h lid : Nat) (leaf : Leaf),
      newLeaf ch pb lid r s h = .ok leaf →
      leaf.style = MatchStyle.all → t.hasMatchAllLeaf = true →
      (t.leaves.any fun l =>
        segmentString l.segment = segmentString s) = false →
      addLeafCore t hp ch pb r s h lid =
        (t, .error .duplicatedMatchAllParam, false)) := by
  refine ⟨rfl, ?_, insertLeafOrdered_stable, second_match_all_error⟩
  intro t r h lid ht
  unfold addRouteT
  split
  · exact ht
  · cases hout : addNextSegment r h r.segments t false [MatchStyle.none] [] lid with
    | mk t2 rp =>
      cases rp with
      | mk res2 pend2 =>
        exact (addNextSegment_ordered r.segments r h t false [MatchStyle.none]
          [] lid t2 res2 pend2 hout ht).1

/-- The tree of `/files/{path: **, capture: 2}` under a fresh root
satisfies the ordering invariant. -/
theorem children_lists_ordered_witness :
    TreeOrdered (addRouteT newTreeRoot
      ((parseRouteStr "/files/{path: **, capture: 2}").getD ⟨[]⟩) 7 0).1 =
      true :=
  children_lists_ordered.2.1 newTreeRoot _ 7 0 rfl

/-- A slash-free character list has no slash index. -/
theorem indexOfSlash_none (cs : List Char)
    (h : cs.all (fun c => c ≠ '/') = true) : indexOfSlash cs = Option.none := by
  induction cs with
  | nil => rfl
  | cons c rest ih =>
    rw [List.all_cons, Bool.and_eq_true] at h
    unfold indexOfSlash
    rw [if_neg (by simpa using h.1)]
    rw [ih h.2]
    rfl

/-- The first slash after a slash-free prefix. -/
theorem indexOfSlash_append (a b : List Char)
    (h : a.all (fun c => c ≠ '/') = true) :
    indexOfSlash (a ++ '/' :: b) = some a.length := by
  induction a with
  | nil => rfl
  | cons c rest ih =>
    rw [List.all_cons, Bool.and_eq_true] at h
    rw [List.cons_append]
    unfold indexOfSlash
    rw [if_neg (by simpa using h.1)]
    rw [ih h.2]
    rfl

/-- `TreeWF` splits into the node invariants and the subtree list. -/
theorem TreeWF_parts (t : Tree) :
    TreeWF t = (nodeOrdered t && nodeDistinct t && nodeShape t &&
      TreeWFList t.subtrees) := by
  cases t
  rfl

/-- `TreeWFList` is membership-wise `TreeWF`. -/
theorem TreeWFList_iff :
    ∀ (l : List Tree), TreeWFList l = true ↔
      ∀ st ∈ l, TreeWF st = true := by
  intro l
  induction l with
  | nil => simp [TreeWFList]
  | cons a tl ih =>
    rw [TreeWFList, Bool.and_eq_true, ih]
    constructor
    · rintro ⟨h1, h2⟩ st hst
      rcases List.mem_cons.1 hst with rfl | h3
      · exact h1
      · exact h2 st h3
    · intro h
      exact ⟨h a (by simp), fun st hst => h st (by simp [hst])⟩

/-- In a sorted rank list, the head rank bounds every member. -/
theorem sorted_head_le_mem {α : Type} (f : α → Nat) (a : α) :
    ∀ (l : List α), ranksSorted ((a :: l).map f) = true →
    ∀ x ∈ l, f a ≤ f x := by
  intro l
  induction l generalizing a with
  | nil => intro _ x hx; simp at hx
  | cons b tl ih =>
    intro hs x hx
    rw [List.map_cons, List.map_cons, ranksSorted_cons_iff] at hs
    have hab : f a ≤ f b := hs.1 (f b) (by rw [List.head?_cons])
    rcases List.mem_cons.1 hx with rfl | h2
    · exact hab
    · have := ih b (by rw [List.map_cons]; exact hs.2) x h2
      omega

/-- A static-style tree node is a `tstatic` node. -/
theorem style_static_kind (t : Tree) (h : t.style = MatchStyle.static) :
    t.kind = .tstatic := by
  unfold Tree.style at h
  cases hk : t.kind <;> rw [hk] at h <;> first | rfl | cases h

/-- A none-style tree node is the root kind. -/
theorem style_none_kind (t : Tree) (h : t.style = MatchStyle.none) :
    t.kind = .troot := by
  unfold Tree.style at h
  cases hk : t.kind <;> rw [hk] at h <;> first | rfl | cases h

/-- Every leaf style has positive rank. -/
theorem leaf_style_rank_pos (a : Leaf) : 1 ≤ a.style.rank := by
  unfold Leaf.style
  cases a.kind <;> simp [MatchStyle.rank]

/-- The leaf loop returns the first static leaf with the matching
literal, on a sorted leaf list. -/
theorem matchLeafList_static (eng : RegexEngine) (leafLit : String)
    (leaf : Leaf) (params : Params) (header : List (String × String)) :
    ∀ (ls : List Leaf),
    ranksSorted (ls.map fun l => l.style.rank) = true →
    ls.find? (fun l => match l.kind with
      | .lstatic lits => lits = leafLit
      | _ => false) = some leaf →
    leaf.headerMatcher = Option.none →
    matchLeafList eng ls leafLit params header = (some leaf, params) := by
  intro ls
  induction ls with
  | nil => intro _ hf; cases hf
  | cons a tl ih =>
    intro hs hf hm
    rw [List.find?_cons] at hf
    by_cases hp : (match a.kind with
      | LeafKind.lstatic lits => decide (lits = leafLit)
      | _ => false) = true
    · rw [hp] at hf
      simp only [cond_true] at hf
      cases Option.some.inj hf
      unfold matchLeafList
      cases hk : leaf.kind with
      | lstatic lits =>
        rw [hk] at hp
        have hl : lits = leafLit := of_decide_eq_true hp
        rw [show leafMatchSeg eng leaf leafLit params header = some params from by
          unfold leafMatchSeg
          rw [hk]
          unfold Leaf.matchHeader
          rw [hm]
          simp [hl]]
      | lregex p b => rw [hk] at hp; cases hp
      | lplaceholder b => rw [hk] at hp; cases hp
      | lmatchAll b c => rw [hk] at hp; cases hp
    · rw [eq_false_of_ne_true hp] at hf
      simp only [cond_false] at hf
      have hmem := List.mem_of_find?_eq_some hf
      have hlr : leaf.style = MatchStyle.static := by
        have hfp := List.find?_some hf
        unfold Leaf.style
        cases hk : leaf.kind <;> rw [hk] at hfp <;> first | rfl | cases hfp
      have hle : a.style.rank ≤ leaf.style.rank :=
        sorted_head_le_mem (fun l => l.style.rank) a tl hs leaf hmem
      rw [hlr] at hle
      have h0 := leaf_style_rank_pos a
      have hastat : a.style = MatchStyle.static := by
        cases has : a.style
        · rw [has] at h0; simp [MatchStyle.rank] at h0
        · rfl
        · rw [has] at hle; simp [MatchStyle.rank] at hle
        · rw [has] at hle; simp [MatchStyle.rank] at hle
        · rw [has] at hle; simp [MatchStyle.rank] at hle
      obtain ⟨lits2, hk2⟩ : ∃ lits2, a.kind = .lstatic lits2 := by
        unfold Leaf.style at hastat
        cases hk : a.kind <;> rw [hk] at hastat
        · exact ⟨_, rfl⟩
        · cases hastat
        · cases hastat
        · cases hastat
      have hne : (lits2 = leafLit) = False := by
        rw [hk2] at hp
        simp only [eq_iff_iff, iff_false]
        intro hcon
        exact hp (decide_eq_true hcon)
      unfold matchLeafList
      rw [show leafMatchSeg eng a leafLit params header = Option.none from by
        simp [leafMatchSeg, hk2, hne]]
      rw [List.map_cons, ranksSorted_cons_iff] at hs
      exact ih hs.2 hf hm

/-- The subtree loop descends into the static subtree with the matching
segment string, on a sorted subtree list. -/
theorem matchSubtreeList_static (eng : RegexEngine) (fns : MatchFns)
    (lit : String) (leaf : Leaf) (path : List Char) (next : Nat)
    (params : Params) (header : List (String × String)) :
    ∀ (sts : List Tree) (st : Tree),
    ranksSorted (sts.map fun st => st.style.rank) = true →
    sts.find? (fun st =>
      st.style = .static && (treeSegStr st).drop 1 = lit) = some st →
    fns.nextSeg st path next params header = (some leaf, params) →
    matchSubtreeList eng fns sts path lit next params header =
      (some leaf, params) := by
  intro sts
  induction sts with
  | nil => intro st _ hf; cases hf
  | cons a tl ih =>
    intro st hs hf hnext
    rw [List.find?_cons] at hf
    by_cases hp : (decide (a.style = MatchStyle.static) &&
        decide ((treeSegStr a).drop 1 = lit)) = true
    · rw [hp] at hf
      simp only [cond_true] at hf
      cases Option.some.inj hf
      rw [Bool.and_eq_true, decide_eq_true_eq, decide_eq_true_eq] at hp
      unfold matchSubtreeList
      rw [if_neg (by rw [hp.1]; simp)]
      rw [show treeMatchSeg eng a lit params = (true, params) from by
        unfold treeMatchSeg
        rw [style_static_kind a hp.1]
        simp [hp.2]]
      show (match fns.nextSeg a path next params header with
        | (some l, ps2) => (some l, ps2)
        | (Option.none, ps2) =>
          matchSubtreeList eng fns tl path lit next ps2 header) =
        (some leaf, params)
      rw [hnext]
    · rw [eq_false_of_ne_true hp] at hf
      simp only [cond_false] at hf
      have hmem := List.mem_of_find?_eq_some hf
      have hstat : st.style = MatchStyle.static := by
        have hfp := List.find?_some hf
        rw [Bool.and_eq_true, decide_eq_true_eq] at hfp
        exact hfp.1
      have hle : a.style.rank ≤ st.style.rank :=
        sorted_head_le_mem (fun st => st.style.rank) a tl hs st hmem
      rw [hstat] at hle
      have hcases : a.style = MatchStyle.none ∨ a.style = MatchStyle.static := by
        cases has : a.style
        · exact Or.inl rfl
        · exact Or.inr rfl
        · rw [has] at hle; simp [MatchStyle.rank] at hle
        · rw [has] at hle; simp [MatchStyle.rank] at hle
        · rw [has] at hle; simp [MatchStyle.rank] at hle
      have hnall : ¬(a.style = MatchStyle.all) := by
        rcases hcases with h1 | h1 <;> rw [h1] <;> intro hcon <;> cases hcon
      unfold matchSubtreeList
      rw [if_neg (by simpa using hnall)]
      rw [List.map_cons, ranksSorted_cons_iff] at hs
      rcases hcases with h1 | h1
      · rw [show treeMatchSeg eng a lit params = (false, params) from by
          unfold treeMatchSeg
          rw [style_none_kind a h1]]
        exact ih st hs.2 hf hnext
      · have hne2 : ¬((treeSegStr a).drop 1 = lit) := by
          intro hcon
          exact hp (by rw [Bool.and_eq_true, decide_eq_true_eq,
            decide_eq_true_eq]; exact ⟨h1, hcon⟩)
        rw [show treeMatchSeg eng a lit params = (false, params) from by
          unfold treeMatchSeg
          rw [style_static_kind a h1]
          simp [hne2]]
        exact ih st hs.2 hf hnext

/-- The static descent: following a chain of static subtrees and a
final static leaf matches exactly that leaf, binding nothing. -/
theorem static_descent (eng : RegexEngine) (header : List (String × String))
    (leaf : Leaf) :
    ∀ (lits : List String) (fuel : Nat) (leafLit : String) (t : Tree)
      (path : List Char) (next : Nat) (params : Params),
    TreeWF t = true →
    (∀ l ∈ lits, litOk l = true) →
    leafLit.data.all (fun c => c ≠ '/') = true →
    staticLeafAt t lits leafLit = some leaf →
    leaf.headerMatcher = Option.none →
    path.drop next = restData lits leafLit →
    lits.length + 1 ≤ fuel →
    matchNextSegmentT eng fuel t path next params header =
      (some leaf, params) := by
  intro lits
  induction lits with
  | nil =>
    intro fuel leafLit t path next params hwf _ hll hat hm hdrop hfuel
    cases fuel with
    | zero => omega
    | succ f =>
      unfold matchNextSegmentT matchFns matchStep
      simp only []
      rw [hdrop]
      rw [show restData [] leafLit = leafLit.data from rfl]
      rw [indexOfSlash_none _ hll]
      have hwf2 := (TreeWF_parts t) ▸ hwf
      rw [Bool.and_eq_true, Bool.and_eq_true, Bool.and_eq_true] at hwf2
      have hsorted : ranksSorted (t.leaves.map fun l => l.style.rank) = true := by
        have hn := hwf2.1.1.1
        unfold nodeOrdered at hn
        rw [Bool.and_eq_true, Bool.and_eq_true, Bool.and_eq_true] at hn
        exact hn.1.1.2
      have := matchLeafList_static eng leafLit leaf params header t.leaves
        hsorted hat hm
      show matchLeafList eng t.leaves (String.mk leafLit.data) params header =
        (some leaf, params)
      rw [show (String.mk leafLit.data) = leafLit from rfl]
      exact this
  | cons lit rest ih =>
    intro fuel leafLit t path next params hwf hlits hll hat hm hdrop hfuel
    cases fuel with
    | zero => simp at hfuel
    | succ f =>
      have hlit : litOk lit = true := hlits lit (by simp)
      rw [litOk, Bool.and_eq_true] at hlit
      unfold matchNextSegmentT matchFns matchStep
      simp only []
      rw [hdrop]
      rw [show restData (lit :: rest) leafLit =
        lit.data ++ '/' :: restData rest leafLit from rfl]
      rw [indexOfSlash_append _ _ hlit.2]
      show matchSubtreeT eng (matchFns eng f) t path
        (String.mk ((lit.data ++ '/' :: restData rest leafLit).take
          lit.data.length)) (next + lit.data.length + 1) params header =
        (some leaf, params)
      rw [show String.mk ((lit.data ++ '/' :: restData rest leafLit).take
        lit.data.length) = lit from by rw [List.take_left]]
      unfold matchSubtreeT
      -- the found subtree
      have hat2 := hat
      unfold staticLeafAt at hat2
      cases hfind : t.subtrees.find? (fun st =>
          st.style = .static && (treeSegStr st).drop 1 = lit) with
      | none => rw [hfind] at hat2; cases hat2
      | some st =>
        rw [hfind] at hat2
        have hwf2 := (TreeWF_parts t) ▸ hwf
        rw [Bool.and_eq_true, Bool.and_eq_true, Bool.and_eq_true] at hwf2
        have hsorted : ranksSorted (t.subtrees.map fun st => st.style.rank) =
            true := by
          have hn := hwf2.1.1.1
          unfold nodeOrdered at hn
          rw [Bool.and_eq_true, Bool.and_eq_true, Bool.and_eq_true] at hn
          exact hn.1.1.1
        have hstwf : TreeWF st = true :=
          (TreeWFList_iff t.subtrees).1 hwf2.2 st
            (List.mem_of_find?_eq_some hfind)
        have hdrop2 : path.drop (next + lit.data.length + 1) =
            restData rest leafLit := by
          have h1 : path.drop (next + lit.data.length + 1) =
              (path.drop next).drop (lit.data.length + 1) := by
            rw [List.drop_drop]
            ring_nf
          rw [h1, hdrop]
          rw [show restData (lit :: rest) leafLit =
            lit.data ++ '/' :: restData rest leafLit from rfl]
          rw [show lit.data.length + 1 = (lit.data ++ ['/']).length from by
            simp]
          rw [show lit.data ++ '/' :: restData rest leafLit =
            (lit.data ++ ['/']) ++ restData rest leafLit from by simp]
          exact List.drop_left _ _
        have hnext : (matchFns eng f).nextSeg st path
            (next + lit.data.length + 1) params header =
            (some leaf, params) := by
          have := ih f leafLit st path (next + lit.data.length + 1) params
            hstwf (fun l hl => hlits l (by simp [hl])) hll hat2 hm hdrop2
            (by simp at hfuel ⊢; omega)
          exact this
        have hwalk := matchSubtreeList_static eng (matchFns eng f) lit leaf
          path (next + lit.data.length + 1) params header t.subtrees st
          hsorted hfind hnext
        rw [hwalk]

/-- The characters of a slash-joined literal chain. -/
theorem joinLits_data (leafLit : String) :
    ∀ (lits : List String),
    (joinLits (lits ++ [leafLit])).data = '/' :: restData lits leafLit := by
  intro lits
  induction lits with
  | nil =>
    show (String.join (["/" ++ leafLit].map id)).data = _
    simp [String.join, restData]
  | cons lit rest ih =>
    show (String.join ((("/" ++ lit) :: (rest ++ [leafLit]).map
      (fun l => "/" ++ l)))).data = _
    rw [str_join_cons]
    show ("/" ++ lit).data ++ (joinLits (rest ++ [leafLit])).data = _
    rw [ih]
    show '/' :: (lit.data ++ '/' :: restData rest leafLit) = _
    rfl

/-- Trimming leading slashes leaves a literal chain unchanged. -/
theorem restData_trim (lits : List String) (leafLit : String)
    (hlits : ∀ l ∈ lits, litOk l = true)
    (hll : leafLit.data.all (fun c => c ≠ '/') = true) :
    (restData lits leafLit).dropWhile (fun c => c = '/') =
      restData lits leafLit := by
  cases lits with
  | nil =>
    show leafLit.data.dropWhile (fun c => c = '/') = leafLit.data
    cases hd : leafLit.data with
    | nil => rfl
    | cons c cs =>
      rw [hd, List.all_cons, Bool.and_eq_true] at hll
      rw [List.dropWhile_cons, if_neg (by simpa using hll.1)]
  | cons lit rest =>
    show (lit.data ++ '/' :: restData rest leafLit).dropWhile
      (fun c => c = '/') = lit.data ++ '/' :: restData rest leafLit
    have hlit := hlits lit (by simp)
    rw [litOk, Bool.and_eq_true] at hlit
    cases hd : lit.data with
    | nil =>
      exfalso
      have hlit0 : lit = "" := by
        cases lit with
        | mk d => cases hd; rfl
      rw [hlit0] at hlit
      have h3 := (String.isEmpty_iff "").2 rfl
      rw [h3] at hlit
      simp at hlit
    | cons c cs =>
      have h2 := hlit.2
      rw [hd, List.all_cons, Bool.and_eq_true] at h2
      rw [List.cons_append, List.dropWhile_cons,
        if_neg (by simpa using h2.1)]

/-- A literal chain is at least as long as its literal count. -/
theorem restData_length (leafLit : String) :
    ∀ (lits : List String), lits.length ≤ (restData lits leafLit).length := by
  intro lits
  induction lits with
  | nil => simp
  | cons lit rest ih =>
    show (lit :: rest).length ≤ (lit.data ++ '/' :: restData rest leafLit).length
    simp only [List.length_cons, List.length_append, List.length_cons]
    omega

/-- A tree-backed fast-map entry is matched by the tree itself: the
descent returns the same leaf with no bind parameters. -/
theorem fast_entry_tree_match (eng : RegexEngine)
    (header : List (String × String)) (t : Tree) (p : String) (leaf : Leaf)
    (hwf : TreeWF t = true) (hfe : FastEntryOk t p leaf) :
    treeMatchT eng t p header = some (leaf, []) := by
  obtain ⟨lits, leafLit, hp, hlits, hll, hfind, _, hm⟩ := hfe
  unfold treeMatchT
  have hcs : p.data.dropWhile (fun c => c = '/') = restData lits leafLit := by
    rw [hp, joinLits_data, List.dropWhile_cons, if_pos (by simp)]
    exact restData_trim lits leafLit hlits hll
  rw [hcs]
  simp only []
  rw [static_descent eng header leaf lits
    ((restData lits leafLit).length + 2) leafLit t (restData lits leafLit) 0
    [] hwf hlits hll hfind hm rfl
    (by have := restData_length leafLit lits; omega)]
  rfl

/-- A deleted key is gone from an association list. -/
theorem assocGet_del_self {α : Type} (m : List (String × α)) (k : String) :
    assocGet (assocDel m k) k = Option.none := by
  unfold assocGet
  rw [show (assocDel m k).find? (fun p => p.1 = k) = Option.none from ?_]
  · rfl
  · rw [List.find?_eq_none]
    intro p hp
    unfold assocDel at hp
    rw [List.mem_filter] at hp
    simpa using hp.2

/-- Updating one key of an association list through `map`. -/
theorem assocGet_map_if {α : Type} (k : String) (f : α → α) :
    ∀ (l : List (String × α)),
    assocGet (l.map fun p => if p.1 = k then (p.1, f p.2) else p) k =
      (assocGet l k).map f := by
  intro l
  induction l with
  | nil => rfl
  | cons p l ih =>
    by_cases hk : p.1 = k
    · unfold assocGet
      rw [List.map_cons, if_pos hk]
      rw [List.find?_cons, List.find?_cons]
      rw [show (decide (p.1 = k)) = true from decide_eq_true hk]
      rfl
    · unfold assocGet
      rw [List.map_cons, if_neg hk]
      rw [List.find?_cons, List.find?_cons]
      rw [show (decide (p.1 = k)) = false from decide_eq_false hk]
      simp only [cond_false]
      exact ih

/-- The optional static route `/users/?sessions` lands in the fast map
under its rendered route string, a path the tree itself does not match:
the two dispatch paths disagree on it. -/
theorem static_fast_map_counterexample :
    (applyOps [.addRoute "GET" "/users/?sessions" 5 Option.none]).isSome =
      true ∧
    (∀ (eng : RegexEngine) (header : List (String × String)),
      (match serveHTTP eng ((applyOps [.addRoute "GET" "/users/?sessions" 5
          Option.none]).getD newRouterSt) "GET" "/users/?sessions" header with
        | .fastPath l _ => some l.handlerId
        | _ => Option.none) = some 5) ∧
    (∀ (eng : RegexEngine) (header : List (String × String)),
      (assocGet ((applyOps [.addRoute "GET" "/users/?sessions" 5
          Option.none]).getD newRouterSt).routeTrees "GET").map
        (fun tree => treeMatchT eng tree "/users/?sessions" header) =
      some Option.none) :=
  ⟨rfl, fun _ _ => rfl, fun _ _ => rfl⟩

/-- **C7.** For every fast-map entry backed by the tree (a chain of
static subtrees ending in a static leaf with no header matcher — the
shape produced for purely-static routes without an optional tail):
dispatching through the fast map returns the same leaf that tree
traversal returns, with no bind parameters; attaching a header matcher
via `Headers()` afterwards deletes the leaf's entry from the fast map,
so header-constrained routes are dispatched only through tree
traversal. -/
theorem static_fast_map_equiv :
    (∀ (eng : RegexEngine) (header : List (String × String)) (t : Tree)
      (p : String) (leaf : Leaf),
      TreeWF t = true → FastEntryOk t p leaf →
      treeMatchT eng t p header = some (leaf, [])) ∧
    (∀ (eng : RegexEngine) (rt : RouterSt) (method p : String) (leaf : Leaf)
      (mm : List (String × Leaf)) (tree : Tree)
      (header : List (String × String)),
      assocGet rt.staticRoutes method = some mm →
      assocGet mm p = some leaf →
      assocGet rt.routeTrees method = some tree →
      TreeWF tree = true →
      FastEntryOk tree p leaf →
      serveHTTP eng rt method p header =
        .fastPath leaf [("route", leaf.routeStr)] ∧
      treeMatchT eng tree p header = some (leaf, [])) ∧
    (∀ (rt : RouterSt) (method : String) (leaf : Leaf)
      (matcher : List (String × String)) (mm : List (String × Leaf)),
      leaf.static = true →
      assocGet rt.staticRoutes method = some mm →
      assocGet (routerHeaders rt method leaf matcher).staticRoutes method =
        some (assocDel mm leaf.routeStr) ∧
      assocGet (assocDel mm leaf.routeStr) leaf.routeStr = Option.none) := by
  refine ⟨fast_entry_tree_match, ?_, ?_⟩
  · intro eng rt method p leaf mm tree header h1 h2 h3 hwf hfe
    constructor
    · unfold serveHTTP
      rw [h1]
      show (match assocGet mm p with
        | some leaf => Dispatch.fastPath leaf [("route", leaf.routeStr)]
        | Option.none => _) = _
      rw [h2]
    · exact fast_entry_tree_match eng header tree p leaf hwf hfe
  · intro rt method leaf matcher mm hstat hmm
    constructor
    · unfold routerHeaders
      simp only [hstat, if_true]
      rw [assocGet_map_if method (fun mm2 => assocDel mm2 leaf.routeStr)
        rt.staticRoutes]
      rw [hmm]
      rfl
    · exact assocGet_del_self mm leaf.routeStr

/-- The fast map and the tree agree on `GET /users/sessions`. -/
theorem static_fast_map_equiv_witness :
    serveHTTP emptyPatternEngine usersRouter "GET" "/users/sessions" [] =
      .fastPath usersLeaf [("route", usersLeaf.routeStr)] ∧
    treeMatchT emptyPatternEngine usersTree "/users/sessions" [] =
      some (usersLeaf, []) :=
  static_fast_map_equiv.2.1 emptyPatternEngine usersRouter "GET"
    "/users/sessions" usersLeaf usersFastMap usersTree [] rfl rfl rfl rfl
    ⟨["users"], "sessions", rfl, by decide, by decide, rfl, rfl, rfl⟩
